import Mathlib

/-!
# Sliding-window rate limiter (`src/rate_limiter.go`)

A shallow embedding of the Fiber middleware `RateLimiterUsingRedis` and of the
part of Redis it talks to (`Get`, `Set` with expiry), followed by theorems about
single calls and about sequences of sequential calls.

Modelling conventions.
* Clock readings are whole Unix seconds.  One call reads the clock three times:
  `time.Now().Unix()` on line 39 (`currentRequestTime`, the stamp of a new entry),
  `time.Now().Add(-24h).Unix()` on line 57 (the window start) and
  `time.Now().Add(-1h).Unix()` on line 75 (the start of the log interval).  The three
  readings are three arguments, `now`, `now57` and `now75`; `time.Now().Add(-d).Unix()`
  is the reading minus `d` seconds.
* Go `int` is the 64 bit signed integer: `+=` and `++` on `RequestCount` wrap
  (`wrapInt`).
* The value stored under a key is the JSON text of a `[]requestLog`;
  `json.Marshal` followed by `json.Unmarshal` is the identity on such values, so
  a stored value is represented by the list it decodes to.
* Redis executes the `Get` in the second of the read of line 39 and a `Set` in the
  second of the last clock read before it (line 39 before line 48, line 75 before
  line 85).
* A run-time panic (index out of range) is the decision `none`.
-/

namespace RateLimiter

/-! ## Constants (lines 14-18) -/

/-- Source constant `windowSizeInHours`. -/
def windowSizeInHours : Int := 24

/-- Source constant `maxWindowRequestCount`. -/
def maxWindowRequestCount : Int := 110

/-- Source constant `windowLogIntervalInHours`. -/
def windowLogIntervalInHours : Int := 1

/-- The duration `time.Hour`, in seconds (the unit of `Unix()`). -/
def Hour : Int := 3600

/-! ## Data model (lines 31-34) -/

/-- Source type `requestLog`. -/
structure requestLog where
  RequestTimeStamp : Int
  RequestCount : Int
deriving DecidableEq, Repr

/-- Go `int` arithmetic: the result of an addition reduced to the signed 64 bit range. -/
def wrapInt (x : Int) : Int := (x + 2 ^ 63) % 2 ^ 64 - 2 ^ 63

/-- What the handler does with the request: `c.Next()` (Allow), status 429 (Deny),
status 500 (StoreUnavailable). -/
inductive Decision where
  | Allow
  | Deny
  | StoreUnavailable
deriving DecidableEq, Repr

/-- Outcome of `redisClient.Get(ctx, ip).Result()`: `err == redis.Nil`, another
error, or the stored value (as `json.Unmarshal` decodes it into `data`). -/
inductive GetReply where
  | Nil
  | Err
  | Val (data : List requestLog)
deriving DecidableEq, Repr

/-- The arguments of one `redisClient.Set(ctx, key, value, ttl)`; `ttl` in seconds. -/
structure SetCmd where
  key : String
  value : List requestLog
  ttl : Int
deriving DecidableEq, Repr

/-! ## The handler (lines 38-88) -/

/-- One iteration of the loop of lines 61-66 on the pair
`(requestsWithinWindow, totalWindowRequestsCount)`. -/
def scanStep (windowStartTimestamp : Int) (acc : List requestLog × Int) (entry : requestLog) :
    List requestLog × Int :=
  if entry.RequestTimeStamp > windowStartTimestamp then
    (acc.1 ++ [entry], wrapInt (acc.2 + entry.RequestCount))
  else acc

/-- The loop of lines 61-66: `requestsWithinWindow` and `totalWindowRequestsCount`. -/
def windowScan (windowStartTimestamp : Int) (data : List requestLog) : List requestLog × Int :=
  data.foldl (scanStep windowStartTimestamp) ([], 0)

/-- Lines 73-85 (the request is admitted): the decision and the write issued.  `now` is
`currentRequestTime`, the reading of line 39; `now75` is the reading of line 75.
`requestsWithinWindow[len-1]` on an empty slice and `data[len(data)-1] = ...` on an
empty `data` are run-time panics. -/
def logRequest (now now75 : Int) (ip : String) (data requestsWithinWindow : List requestLog) :
    Option Decision × Option SetCmd :=
  match requestsWithinWindow.getLast? with
  | none => (none, none)
  | some lastRequestLog =>
    if lastRequestLog.RequestTimeStamp > now75 - windowLogIntervalInHours * Hour then
      match data with
      | [] => (none, none)
      | _ :: _ =>
        (some Decision.Allow,
          some ⟨ip, data.set (data.length - 1)
            ⟨lastRequestLog.RequestTimeStamp, wrapInt (lastRequestLog.RequestCount + 1)⟩,
            windowSizeInHours * Hour⟩)
    else
      (some Decision.Allow,
        some ⟨ip, data ++ [⟨now, 1⟩], windowSizeInHours * Hour⟩)

/-- The handler body with the request limit as a parameter: the decision
(`none` for a panic) and the `Set` it issues, if any, given the three clock readings
(`now` of line 39, `now57` of line 57, `now75` of line 75), the client address and
the outcome of the `Get`. -/
def limiter (maxCount now now57 now75 : Int) (ip : String) :
    GetReply → Option Decision × Option SetCmd
  | GetReply.Nil =>
    (some Decision.Allow, some ⟨ip, [⟨now, 1⟩], windowSizeInHours * Hour⟩)
  | GetReply.Err => (some Decision.StoreUnavailable, none)
  | GetReply.Val data =>
    let scan := windowScan (now57 - windowSizeInHours * Hour) data
    if scan.2 ≥ maxCount then (some Decision.Deny, none)
    else logRequest now now75 ip data scan.1

/-- The handler of the source: the limit is `maxWindowRequestCount`. -/
def RateLimiterUsingRedis (now now57 now75 : Int) (ip : String) (reply : GetReply) :
    Option Decision × Option SetCmd :=
  limiter maxWindowRequestCount now now57 now75 ip reply

/-! ## The store -/

/-- A stored value with the second at which its TTL lapses. -/
structure Slot where
  value : List requestLog
  expiresAt : Int
deriving DecidableEq, Repr

/-- The Redis keyspace, keyed by client address. -/
abbrev Store := String → Option Slot

/-- The store before any write. -/
def emptyStore : Store := fun _ => none

/-- One call of the handler as the environment presents it: the clock reading of line
39, the client address, whether the `Get` and the `Set` fail at the connection, for a
key whose TTL lapses in the very second of the `Get` whether it has already lapsed, and
the clock readings of line 57 and of line 75. -/
structure Call where
  now : Int
  ip : String
  getFails : Bool
  setFails : Bool
  lapsed : Bool
  now57 : Int
  now75 : Int
deriving DecidableEq, Repr

/-- A call against a reachable store during which the clock does not tick: the three
readings are `now`. -/
def Call.ok (now : Int) (ip : String) : Call := ⟨now, ip, false, false, false, now, now⟩

/-- A call against a reachable store with the three clock readings given. -/
def Call.reads (now now57 now75 : Int) (ip : String) : Call :=
  ⟨now, ip, false, false, false, now57, now75⟩

/-- The clock does not go back during the call and at most `σ` seconds pass between
the reads of line 39 and of line 75. -/
@[reducible]
def Call.timed (σ : Int) (c : Call) : Prop :=
  c.now ≤ c.now57 ∧ c.now57 ≤ c.now75 ∧ c.now75 ≤ c.now + σ

/-- Sequential calls on one clock: every call starts (line 39) no earlier than the
last clock read (line 75) of every earlier call. -/
@[reducible]
def Sequential (cs : List Call) : Prop :=
  cs.Pairwise (fun a b => a.now75 ≤ b.now)

/-- Redis `GET` as the handler sees it. -/
def redisGet (s : Store) (c : Call) : GetReply :=
  if c.getFails then GetReply.Err
  else
    match s c.ip with
    | none => GetReply.Nil
    | some slot =>
      if slot.expiresAt < c.now ∨ (slot.expiresAt = c.now ∧ c.lapsed = true) then GetReply.Nil
      else GetReply.Val slot.value

/-- Redis `SET key value EX ttl` executed in second `t`. -/
def redisSet (s : Store) (t : Int) (cmd : SetCmd) : Store :=
  fun k => if k = cmd.key then some ⟨cmd.value, t + cmd.ttl⟩ else s k

/-- The second in which the `Set` of the call is executed: that of the last clock read
before it, line 75 on a found record (line 85), line 39 otherwise (line 48). -/
def setSecond (c : Call) : GetReply → Int
  | GetReply.Val _ => c.now75
  | _ => c.now

/-- The effect of the write the handler issued, if any, executed in second `t`. -/
def applyWrite (s : Store) (c : Call) (t : Int) : Option SetCmd → Store
  | none => s
  | some cmd => if c.setFails then s else redisSet s t cmd

/-- One call of the handler with limit `maxCount` against the store. -/
def stepWith (maxCount : Int) (s : Store) (c : Call) : Option Decision × Store :=
  let r := limiter maxCount c.now c.now57 c.now75 c.ip (redisGet s c)
  (r.1, applyWrite s c (setSecond c (redisGet s c)) r.2)

/-- Sequential calls with limit `maxCount`: the decisions in order and the final store. -/
def runWith (maxCount : Int) : Store → List Call → List (Option Decision) × Store
  | s, [] => ([], s)
  | s, c :: cs =>
    let r := stepWith maxCount s c
    let rest := runWith maxCount r.2 cs
    (r.1 :: rest.1, rest.2)

/-- One call of the source handler against the store. -/
def step (s : Store) (c : Call) : Option Decision × Store :=
  stepWith maxWindowRequestCount s c

/-- Sequential calls of the source handler. -/
def run (s : Store) (cs : List Call) : List (Option Decision) × Store :=
  runWith maxWindowRequestCount s cs

/-! ## Specification-side notions -/

/-- The entries inside the window whose start is computed from the clock reading `t`
(the reading of line 57): those with `requestTimeStamp > t - 86400`, in their original
order. -/
def activeEntries (t : Int) (data : List requestLog) : List requestLog :=
  data.filter (fun e => decide (e.RequestTimeStamp > t - 86400))

/-- Sum of a list of counts in Go `int` arithmetic, left to right. -/
def goSum (counts : List Int) : Int :=
  counts.foldl (fun acc n => wrapInt (acc + n)) 0

/-- The running total for the window of the clock reading `t`: the sum of
`requestCount` over the active entries, in Go `int` arithmetic. -/
def windowTotal (t : Int) (data : List requestLog) : Int :=
  goSum ((activeEntries t data).map requestLog.RequestCount)

/-- Exact sum of `requestCount` over the entries with `requestTimeStamp > θ`. -/
def activeSum (θ : Int) (data : List requestLog) : Int :=
  ((data.filter (fun e => decide (e.RequestTimeStamp > θ))).map requestLog.RequestCount).sum

/-- Number of requests of a bucket that can have a request time of `θ + 3600` or later:
none for a bucket stamped `θ` or earlier, all but the one that opened it for a bucket
stamped before `θ + 3600`, all for a later bucket. -/
def credit (θ : Int) (e : requestLog) : Int :=
  if e.RequestTimeStamp > θ then
    if e.RequestTimeStamp ≥ θ + 3600 then e.RequestCount else e.RequestCount - 1
  else 0

/-- Sum of `credit θ` over a record. -/
def creditSum (θ : Int) (data : List requestLog) : Int :=
  (data.map (credit θ)).sum

/-- The request times (readings of line 39) of the admitted calls of a run, in call
order, from the calls and their decisions. -/
def admittedTimes : List Call → List (Option Decision) → List Int
  | c :: cs, d :: ds =>
    if d = some Decision.Allow then c.now :: admittedTimes cs ds else admittedTimes cs ds
  | _, _ => []

/-- What holds of a stored record of one client, given the request times `adm` of the
admitted calls of that client so far and a bound `σ` on the seconds that pass between
lines 39 and 75 of a call.  The record was written in second `expiresAt - 86400`; no
admitted request and no entry is later than that; counts are positive; any two entries
lie at least `3600 - σ` s apart in ascending order; and for every `θ` from 86400 s
before the write on, the admitted requests at `θ + 3600` or later are accounted for by
the credit of the entries. -/
structure RecordInv (σ : Int) (adm : List Int) (slot : Slot) : Prop where
  adm_le : ∀ a ∈ adm, a ≤ slot.expiresAt - 86400
  ts_le : ∀ e ∈ slot.value, e.RequestTimeStamp ≤ slot.expiresAt - 86400
  count_pos : ∀ e ∈ slot.value, 1 ≤ e.RequestCount
  spaced : slot.value.Pairwise
    (fun a b => a.RequestTimeStamp + 3600 ≤ b.RequestTimeStamp + σ)
  attributed : ∀ θ, slot.expiresAt - 86400 - 86400 ≤ θ →
    ((adm.countP (fun a => decide (θ + 3600 ≤ a)) : Nat) : Int) ≤ creditSum θ slot.value

/-- Invariant of the sequential calls of one client `ip` on one clock, with a store that
takes every write: `adm` are the request times admitted so far, `tlast` the last clock
reading so far, `tw` a clock reading for whose window the stored counts sum to at most
the limit. -/
def RunInv (maxCount σ : Int) (ip : String) (s : Store) (adm : List Int) (tlast tw : Int) :
    Prop :=
  (∀ t, ((adm.countP (fun a => decide (t - 86400 + 3600 ≤ a ∧ a ≤ t)) : Nat) : Int) ≤ maxCount)
  ∧ (s ip = none → adm = [])
  ∧ (∀ slot, s ip = some slot →
      slot.expiresAt - 86400 ≤ tlast ∧ tw ≤ tlast
        ∧ activeSum (tw - 86400) slot.value ≤ maxCount ∧ RecordInv σ adm slot)

/-- The part of `RunInv` that concerns the stored record alone; it holds whatever the
store does with the writes. -/
def ClientInv (maxCount σ : Int) (ip : String) (s : Store) (tlast tw : Int) : Prop :=
  ∀ slot, s ip = some slot →
    slot.expiresAt - 86400 ≤ tlast ∧ tw ≤ tlast
      ∧ activeSum (tw - 86400) slot.value ≤ maxCount ∧ RecordInv σ [] slot

/-- Every stored record is in ascending order with any two entries at least
`3600 - σ` s apart. -/
def StoreSpaced (σ : Int) (s : Store) : Prop :=
  ∀ k slot, s k = some slot →
    slot.value.Pairwise (fun a b => a.RequestTimeStamp + 3600 ≤ b.RequestTimeStamp + σ)

/-- No stored entry has a timestamp later than `T`. -/
def StoreBefore (s : Store) (T : Int) : Prop :=
  ∀ k slot, s k = some slot → ∀ e ∈ slot.value, e.RequestTimeStamp ≤ T

/-- One operation sent to Redis. -/
inductive RedisOp where
  | Get (key : String)
  | Set (cmd : SetCmd)
deriving DecidableEq, Repr

/-- The operations one call sends to Redis, in order: the `Get` of line 43, which only
the clock read and `c.IP()` precede, then the `Set` of line 48 or of line 85 when the
handler gets there. -/
def storeOps (maxCount now now57 now75 : Int) (ip : String) (reply : GetReply) :
    List RedisOp :=
  RedisOp.Get ip ::
    match (limiter maxCount now now57 now75 ip reply).2 with
    | some cmd => [RedisOp.Set cmd]
    | none => []

/-- A JSON value standing where an integer field of `requestLog` is expected: a number
that fits the Go type of the field, or any other value (a string, a number out of
range). -/
inductive JsonField where
  | num (n : Int)
  | other
deriving DecidableEq, Repr

/-- A stored text as `json.Unmarshal(text, &data)` reads it: the JSON literal `null`, a
text that is neither `null` nor a JSON array (a syntax error, or a JSON value of another
kind), or an array of objects with the fields `requestTimeStamp` and `requestCount`. -/
inductive StoredText where
  | null
  | noArray
  | array (objs : List (JsonField × JsonField))
deriving DecidableEq, Repr

/-- The value `json.Unmarshal` leaves in an integer field: the number, or the zero value
when the JSON value has another type (the field is skipped). -/
def JsonField.value : JsonField → Int
  | JsonField.num n => n
  | JsonField.other => 0

/-- Whether `json.Unmarshal` decodes the field without an error. -/
def JsonField.fits : JsonField → Bool
  | JsonField.num _ => true
  | JsonField.other => false

/-- The call `json.Unmarshal([]byte(record), &data)` of line 56 on `var data []requestLog`:
the content of `data` afterwards, and whether an error is returned.  On `null` `data`
stays nil and no error is returned; on another text that is no array `data` stays nil
and an error is returned; in an array a field of the wrong type is skipped, decoding
goes on, and an `UnmarshalTypeError` is returned at the end. -/
def unmarshal : StoredText → List requestLog × Bool
  | StoredText.null => ([], false)
  | StoredText.noArray => ([], true)
  | StoredText.array objs =>
    (objs.map (fun o => ⟨o.1.value, o.2.value⟩),
      objs.any (fun o => !(o.1.fits && o.2.fits)))

/-- Lines 54-88 on a stored text: line 56 discards the error of `json.Unmarshal` and the
handler goes on with `data`. -/
def handleStoredText (now now57 now75 : Int) (ip : String) (text : StoredText) :
    Option Decision × Option SetCmd :=
  RateLimiterUsingRedis now now57 now75 ip (GetReply.Val (unmarshal text).1)

/-- The decisions of the calls made by client `ip`, in order, from the calls and their
decisions. -/
def decisionsOf (ip : String) : List Call → List (Option Decision) → List (Option Decision)
  | c :: cs, d :: ds => if c.ip = ip then d :: decisionsOf ip cs ds else decisionsOf ip cs ds
  | _, _ => []

/-! ## Basic facts about the scan -/

theorem wrapInt_of_range (x : Int) (h0 : -(2 ^ 63) ≤ x) (h1 : x < 2 ^ 63) : wrapInt x = x := by
  unfold wrapInt
  rw [Int.emod_eq_of_lt (by omega) (by omega)]
  omega

theorem foldl_scanStep (ws : Int) (data : List requestLog) (l : List requestLog) (a : Int) :
    data.foldl (scanStep ws) (l, a)
      = (l ++ data.filter (fun e => decide (e.RequestTimeStamp > ws)),
          ((data.filter (fun e => decide (e.RequestTimeStamp > ws))).map
            requestLog.RequestCount).foldl (fun acc n => wrapInt (acc + n)) a) := by
  induction data generalizing l a with
  | nil => simp
  | cons e es ih =>
    by_cases h : e.RequestTimeStamp > ws
    · simp [List.foldl_cons, scanStep, h, ih]
    · simp [List.foldl_cons, scanStep, h, ih]

theorem windowScan_eq (t : Int) (data : List requestLog) :
    windowScan (t - windowSizeInHours * Hour) data
      = (activeEntries t data, windowTotal t data) := by
  have h : t - windowSizeInHours * Hour = t - 86400 := by
    simp [windowSizeInHours, Hour]
  rw [h]
  unfold windowScan windowTotal goSum activeEntries
  rw [foldl_scanStep]
  simp

theorem goSum_foldl_exact (l : List Int) (a : Int) (ha : 0 ≤ a)
    (hl : ∀ n ∈ l, 0 ≤ n) (hs : a + l.sum < 2 ^ 63) :
    l.foldl (fun acc n => wrapInt (acc + n)) a = a + l.sum := by
  induction l generalizing a with
  | nil => simp
  | cons n ns ih =>
    have hn : 0 ≤ n := hl n (List.mem_cons_self _ _)
    have hns : ∀ m ∈ ns, 0 ≤ m := fun m hm => hl m (List.mem_cons_of_mem _ hm)
    have hsum : 0 ≤ ns.sum := List.sum_nonneg hns
    simp only [List.sum_cons] at hs
    have hw : wrapInt (a + n) = a + n := wrapInt_of_range _ (by omega) (by omega)
    simp only [List.foldl_cons, List.sum_cons, hw]
    rw [ih (a + n) (by omega) hns (by omega)]
    omega

/-- Without overflow the Go sum is the exact sum. -/
theorem goSum_exact (l : List Int) (hl : ∀ n ∈ l, 0 ≤ n) (hs : l.sum < 2 ^ 63) :
    goSum l = l.sum := by
  unfold goSum
  rw [goSum_foldl_exact l 0 (le_refl 0) hl (by omega)]
  omega

theorem activeEntries_ne_nil_data {t : Int} {data : List requestLog}
    (h : activeEntries t data ≠ []) : data ≠ [] := by
  intro hd
  apply h
  simp [hd, activeEntries]

/-- The handler on a found record, in terms of the active entries and the running total
of the window of line 57. -/
theorem limiter_val (maxCount now now57 now75 : Int) (ip : String) (data : List requestLog) :
    limiter maxCount now now57 now75 ip (GetReply.Val data)
      = if windowTotal now57 data ≥ maxCount then (some Decision.Deny, none)
        else logRequest now now75 ip data (activeEntries now57 data) := by
  simp only [limiter, windowScan_eq]

theorem logRequest_decision_of_ne_nil (now now75 : Int) (ip : String)
    (data act : List requestLog) (hact : act ≠ []) (hdata : data ≠ []) :
    (logRequest now now75 ip data act).1 = some Decision.Allow := by
  unfold logRequest
  cases hl : act.getLast? with
  | none => exact absurd (List.getLast?_eq_none_iff.mp hl) hact
  | some last =>
    cases data with
    | nil => exact absurd rfl hdata
    | cons d ds =>
      simp only
      split <;> rfl

theorem logRequest_decision_ne_deny (now now75 : Int) (ip : String)
    (data act : List requestLog) :
    (logRequest now now75 ip data act).1 ≠ some Decision.Deny := by
  unfold logRequest
  cases act.getLast? with
  | none => simp
  | some last =>
    cases data with
    | nil => simp only; split <;> simp
    | cons d ds => simp only; split <;> simp

/-- On a found record: Deny exactly when the Go total reaches the limit, Allow when it is
below the limit and an entry is inside the window. -/
theorem limiter_val_decision (maxCount now now57 now75 : Int) (ip : String)
    (data : List requestLog) :
    ((limiter maxCount now now57 now75 ip (GetReply.Val data)).1 = some Decision.Deny
        ↔ windowTotal now57 data ≥ maxCount)
      ∧ (windowTotal now57 data < maxCount → activeEntries now57 data ≠ [] →
          (limiter maxCount now now57 now75 ip (GetReply.Val data)).1
            = some Decision.Allow) := by
  rw [limiter_val]
  constructor
  · by_cases h : windowTotal now57 data ≥ maxCount
    · simp [h]
    · simp only [h, if_false, iff_false]
      exact logRequest_decision_ne_deny _ _ _ _ _
  · intro hlt hact
    have h : ¬ windowTotal now57 data ≥ maxCount := by omega
    rw [if_neg h]
    exact logRequest_decision_of_ne_nil _ _ _ _ _ hact (activeEntries_ne_nil_data hact)

/-! ## Single calls -/

/-- C1, counterexample: the record `[{5, 2^63 - 1}, {6, 1}]` met at second 10.  Both
entries are inside the window and their counts sum to `2^63 >= 110`, but the Go `int`
total of the handler wraps to `-2^63` and the request is admitted. -/
theorem exact_total_not_decisive :
    activeEntries 10 [⟨5, 9223372036854775807⟩, ⟨6, 1⟩]
        = [⟨5, 9223372036854775807⟩, ⟨6, 1⟩]
      ∧ ((activeEntries 10 [⟨5, 9223372036854775807⟩, ⟨6, 1⟩]).map
          requestLog.RequestCount).sum ≥ 110
      ∧ windowTotal 10 [⟨5, 9223372036854775807⟩, ⟨6, 1⟩] = -9223372036854775808
      ∧ (RateLimiterUsingRedis 10 10 10 "A"
          (GetReply.Val [⟨5, 9223372036854775807⟩, ⟨6, 1⟩])).1 = some Decision.Allow := by
  decide

/-- C1, amended: on a found record, with `now57` the clock reading of line 57 and the
total taken over the entries with `requestTimeStamp > now57 - 86400`: for a record whose
counted counts are non-negative with an exact sum below `2^63`, the handler answers Deny
exactly when that exact sum is at least 110 and answers Allow when it is below 110 and
some entry is inside the window; for every record the same holds of the Go `int` sum the
handler computes, which then is the exact sum; and an entry whose timestamp equals
`now57 - 86400` is not among the counted entries. -/
theorem deny_iff_total_reaches_limit (now now57 now75 : Int) (ip : String)
    (data : List requestLog) :
    ((∀ e ∈ activeEntries now57 data, 0 ≤ e.RequestCount) →
        ((activeEntries now57 data).map requestLog.RequestCount).sum < 2 ^ 63 →
        windowTotal now57 data = ((activeEntries now57 data).map requestLog.RequestCount).sum
          ∧ ((RateLimiterUsingRedis now now57 now75 ip (GetReply.Val data)).1
                = some Decision.Deny
              ↔ ((activeEntries now57 data).map requestLog.RequestCount).sum ≥ 110)
          ∧ (((activeEntries now57 data).map requestLog.RequestCount).sum < 110 →
              activeEntries now57 data ≠ [] →
              (RateLimiterUsingRedis now now57 now75 ip (GetReply.Val data)).1
                = some Decision.Allow))
    ∧ ((RateLimiterUsingRedis now now57 now75 ip (GetReply.Val data)).1 = some Decision.Deny
        ↔ windowTotal now57 data ≥ 110)
    ∧ (windowTotal now57 data < 110 → activeEntries now57 data ≠ [] →
        (RateLimiterUsingRedis now now57 now75 ip (GetReply.Val data)).1
          = some Decision.Allow)
    ∧ (∀ e ∈ data, e.RequestTimeStamp = now57 - 86400 → e ∉ activeEntries now57 data) := by
  have hdec := limiter_val_decision maxWindowRequestCount now now57 now75 ip data
  simp only [maxWindowRequestCount] at hdec
  refine ⟨?_, hdec.1, hdec.2, ?_⟩
  · intro hnn hs
    have hex : windowTotal now57 data
        = ((activeEntries now57 data).map requestLog.RequestCount).sum := by
      unfold windowTotal
      apply goSum_exact _ _ hs
      intro n hn
      obtain ⟨e, he, rfl⟩ := List.mem_map.mp hn
      exact hnn e he
    rw [← hex]
    exact ⟨rfl, hdec.1, hdec.2⟩
  · intro e _ hts hmem
    have := (List.mem_filter.mp hmem).2
    simp only [decide_eq_true_eq] at this
    omega

/-- Witness for C1 (amended): one entry inside the window with count 3 is admitted. -/
theorem deny_iff_total_reaches_limit_witness :
    ((activeEntries 10 [⟨5, 3⟩]).map requestLog.RequestCount).sum < 110
      ∧ activeEntries 10 [⟨5, 3⟩] ≠ []
      ∧ (RateLimiterUsingRedis 10 10 11 "A" (GetReply.Val [⟨5, 3⟩])).1
        = some Decision.Allow :=
  ⟨by decide, by decide,
    ((deny_iff_total_reaches_limit 10 10 11 "A" [⟨5, 3⟩]).1 (by decide) (by decide)).2.2
      (by decide) (by decide)⟩

theorem limiter_deny_no_write (maxCount now now57 now75 : Int) (ip : String)
    (reply : GetReply)
    (h : (limiter maxCount now now57 now75 ip reply).1 = some Decision.Deny) :
    (limiter maxCount now now57 now75 ip reply).2 = none := by
  cases reply with
  | Nil => simp [limiter] at h
  | Err => simp [limiter] at h
  | Val data =>
    rw [limiter_val] at h ⊢
    by_cases ht : windowTotal now57 data ≥ maxCount
    · simp [ht]
    · rw [if_neg ht] at h
      exact absurd h (logRequest_decision_ne_deny _ _ _ _ _)

/-- C2: a call that is answered Deny issues no write, leaves the whole store (the
record of the client and every other key) as it was, and is answered Deny again when
repeated with the same clock readings. -/
theorem deny_leaves_store_unchanged (s : Store) (c : Call)
    (h : (step s c).1 = some Decision.Deny) :
    (RateLimiterUsingRedis c.now c.now57 c.now75 c.ip (redisGet s c)).2 = none
      ∧ (step s c).2 = s
      ∧ (step (step s c).2 c).1 = some Decision.Deny := by
  have hw : (limiter maxWindowRequestCount c.now c.now57 c.now75 c.ip (redisGet s c)).2
      = none := limiter_deny_no_write _ _ _ _ _ _ h
  have hs : (step s c).2 = s := by
    simp only [step, stepWith, hw, applyWrite]
  refine ⟨hw, hs, ?_⟩
  rw [hs]
  exact h

/-- Witness for C2: a record holding 110 requests inside the window. -/
theorem deny_leaves_store_unchanged_witness :
    (step (fun k => if k = "A" then some ⟨[⟨0, 110⟩], 86400⟩ else none) (Call.ok 5 "A")).1
        = some Decision.Deny
      ∧ (step (fun k => if k = "A" then some ⟨[⟨0, 110⟩], 86400⟩ else none) (Call.ok 5 "A")).2
        = (fun k => if k = "A" then some ⟨[⟨0, 110⟩], 86400⟩ else none) :=
  ⟨by decide,
    (deny_leaves_store_unchanged
      (fun k => if k = "A" then some ⟨[⟨0, 110⟩], 86400⟩ else none) (Call.ok 5 "A")
      (by decide)).2.1⟩

/-- C3: when the `Get` finds no record for the client, the handler answers Allow and
issues one `Set` for that key with the value `[{now, 1}]`, `now` the reading of line 39,
and a TTL of 86400 s; when the `Set` goes through, the key holds exactly that record,
expiring 24 h later. -/
theorem fresh_client_allowed (s : Store) (c : Call) (h : redisGet s c = GetReply.Nil) :
    (step s c).1 = some Decision.Allow
      ∧ (RateLimiterUsingRedis c.now c.now57 c.now75 c.ip (redisGet s c)).2
          = some ⟨c.ip, [⟨c.now, 1⟩], 86400⟩
      ∧ (c.setFails = false →
          (step s c).2 c.ip = some ⟨[⟨c.now, 1⟩], c.now + 86400⟩) := by
  refine ⟨?_, ?_, ?_⟩
  · simp [step, stepWith, h, limiter]
  · simp [RateLimiterUsingRedis, h, limiter, windowSizeInHours, Hour]
  · intro hset
    simp [step, stepWith, h, limiter, applyWrite, hset, redisSet, setSecond,
      windowSizeInHours, Hour]

/-- Witness for C3: the first call of client A against the empty store. -/
theorem fresh_client_allowed_witness :
    redisGet emptyStore (Call.ok 7 "A") = GetReply.Nil
      ∧ (step emptyStore (Call.ok 7 "A")).1 = some Decision.Allow
      ∧ (step emptyStore (Call.ok 7 "A")).2 "A" = some ⟨[⟨7, 1⟩], 86407⟩ :=
  ⟨by decide, (fresh_client_allowed emptyStore (Call.ok 7 "A") (by decide)).1,
    (fresh_client_allowed emptyStore (Call.ok 7 "A") (by decide)).2.2 rfl⟩

/-! ## Calls against a single-entry record -/

theorem redisGet_found (s : Store) (c : Call) (slot : Slot) (hs : s c.ip = some slot)
    (hg : c.getFails = false) (hexp : c.now < slot.expiresAt) :
    redisGet s c = GetReply.Val slot.value := by
  have h1 : ¬ slot.expiresAt < c.now := by omega
  have h2 : ¬ slot.expiresAt = c.now := by omega
  simp [redisGet, hg, hs, h1, h2]

theorem windowTotal_single (t t1 c0 : Int) (hin : t1 > t - 86400)
    (h0 : -(2 ^ 63) ≤ c0) (h1 : c0 < 2 ^ 63) :
    activeEntries t [⟨t1, c0⟩] = [⟨t1, c0⟩] ∧ windowTotal t [⟨t1, c0⟩] = c0 := by
  have ha : activeEntries t [⟨t1, c0⟩] = [⟨t1, c0⟩] := by
    simp [activeEntries, hin]
  refine ⟨ha, ?_⟩
  unfold windowTotal
  rw [ha]
  simp [goSum, wrapInt_of_range c0 h0 h1]

/-- A request that falls into the bucket of a single-entry record below the limit. -/
theorem stepWith_single_coalesce (maxCount : Int) (s : Store) (c : Call) (t1 c0 exp : Int)
    (hs : s c.ip = some ⟨[⟨t1, c0⟩], exp⟩) (hg : c.getFails = false) (hw : c.setFails = false)
    (hexp : c.now < exp) (hin : t1 > c.now57 - 86400) (hlog : t1 > c.now75 - 3600)
    (h0 : 0 ≤ c0) (hlt : c0 < maxCount) (hmax : maxCount < 2 ^ 63) :
    stepWith maxCount s c
      = (some Decision.Allow, redisSet s c.now75 ⟨c.ip, [⟨t1, c0 + 1⟩], 86400⟩) := by
  have hget := redisGet_found s c ⟨[⟨t1, c0⟩], exp⟩ hs hg hexp
  obtain ⟨ha, ht⟩ := windowTotal_single c.now57 t1 c0 hin (by omega) (by omega)
  have hnot : ¬ windowTotal c.now57 [⟨t1, c0⟩] ≥ maxCount := by rw [ht]; omega
  have hwrap : wrapInt (c0 + 1) = c0 + 1 := wrapInt_of_range _ (by omega) (by omega)
  have hlog2 : t1 > c.now75 - windowLogIntervalInHours * Hour := by
    simp only [windowLogIntervalInHours, Hour]; omega
  simp only [stepWith, hget, limiter_val, if_neg hnot, ha, logRequest, List.getLast?_singleton,
    hlog2, if_true, applyWrite, hw, List.length_singleton, hwrap, setSecond]
  simp [List.set, windowSizeInHours, Hour]

/-- A request against a single-entry record that has reached the limit. -/
theorem stepWith_single_deny (maxCount : Int) (s : Store) (c : Call) (t1 c0 exp : Int)
    (hs : s c.ip = some ⟨[⟨t1, c0⟩], exp⟩) (hg : c.getFails = false)
    (hexp : c.now < exp) (hin : t1 > c.now57 - 86400)
    (h0 : 0 ≤ c0) (hge : maxCount ≤ c0) (hmax : c0 < 2 ^ 63) :
    stepWith maxCount s c = (some Decision.Deny, s) := by
  have hget := redisGet_found s c ⟨[⟨t1, c0⟩], exp⟩ hs hg hexp
  obtain ⟨_, ht⟩ := windowTotal_single c.now57 t1 c0 hin (by omega) (by omega)
  have hyes : windowTotal c.now57 [⟨t1, c0⟩] ≥ maxCount := by rw [ht]; omega
  simp only [stepWith, hget, limiter_val, if_pos hyes, applyWrite]

/-- A request of a client for whom the `Get` finds nothing. -/
theorem stepWith_fresh (maxCount : Int) (s : Store) (c : Call) (hs : s c.ip = none)
    (hg : c.getFails = false) (hw : c.setFails = false) :
    stepWith maxCount s c
      = (some Decision.Allow, redisSet s c.now ⟨c.ip, [⟨c.now, 1⟩], 86400⟩) := by
  have hget : redisGet s c = GetReply.Nil := by simp [redisGet, hg, hs]
  simp [stepWith, hget, limiter, applyWrite, hw, setSecond, windowSizeInHours, Hour]

theorem redisSet_same (s : Store) (t : Int) (ip : String) (v : List requestLog) (ttl : Int) :
    (redisSet s t ⟨ip, v, ttl⟩) ip = some ⟨v, t + ttl⟩ := by
  simp [redisSet]

/-- Requests that all fall into the bucket of a single-entry record stamped `t1`, below
the limit: each is admitted and the count grows by the number of requests. -/
theorem runWith_single_coalesce (maxCount : Int) (ip : String) (t1 : Int)
    (hmax : maxCount < 2 ^ 63) :
    ∀ (cs : List Call) (s : Store) (c0 exp : Int),
      s ip = some ⟨[⟨t1, c0⟩], exp⟩ → 0 ≤ c0 → c0 + (cs.length : Int) ≤ maxCount →
      t1 + 86400 ≤ exp →
      (∀ c ∈ cs, c.ip = ip ∧ c.getFails = false ∧ c.setFails = false
        ∧ c.now < t1 + 86400 ∧ c.now57 < t1 + 86400
        ∧ t1 ≤ c.now75 ∧ c.now75 < t1 + 3600) →
      (runWith maxCount s cs).1 = List.replicate cs.length (some Decision.Allow)
        ∧ ∃ exp2, (runWith maxCount s cs).2 ip = some ⟨[⟨t1, c0 + (cs.length : Int)⟩], exp2⟩
          ∧ t1 + 86400 ≤ exp2
          ∧ (∀ c, cs.getLast? = some c → exp2 = c.now75 + 86400)
          ∧ (cs = [] → exp2 = exp) := by
  intro cs
  induction cs with
  | nil =>
    intro s c0 exp hs _ _ hexp _
    exact ⟨rfl, exp, by simpa [runWith] using hs, hexp, by simp, fun _ => rfl⟩
  | cons c cs ih =>
    intro s c0 exp hs h0 hlen hexp hall
    obtain ⟨hip, hg, hw, hnow, h57, h75lo, h75hi⟩ := hall c (List.mem_cons_self _ _)
    have hlen2 : c0 + 1 + (cs.length : Int) ≤ maxCount := by
      simp only [List.length_cons, Nat.cast_add, Nat.cast_one] at hlen; omega
    have hstep := stepWith_single_coalesce maxCount s c t1 c0 exp (by rw [hip]; exact hs) hg hw
      (by omega) (by omega) (by omega) h0 (by omega) hmax
    have hs2 : (redisSet s c.now75 ⟨c.ip, [⟨t1, c0 + 1⟩], 86400⟩) ip
        = some ⟨[⟨t1, c0 + 1⟩], c.now75 + 86400⟩ := by
      rw [hip]; exact redisSet_same _ _ _ _ _
    obtain ⟨hdec, exp2, hfin, hexp2, hlast, hnil⟩ :=
      ih (redisSet s c.now75 ⟨c.ip, [⟨t1, c0 + 1⟩], 86400⟩) (c0 + 1) (c.now75 + 86400) hs2
        (by omega) hlen2 (by omega)
        (fun d hd => hall d (List.mem_cons_of_mem _ hd))
    refine ⟨?_, exp2, ?_, hexp2, ?_, by simp⟩
    · simp [runWith, hstep, hdec, List.replicate_succ]
    · have hadd : c0 + 1 + (cs.length : Int) = c0 + ((cs.length : Int) + 1) := by omega
      simp only [runWith, hstep, hfin, List.length_cons, Nat.cast_add, Nat.cast_one, hadd]
    · intro d hd
      cases cs with
      | nil =>
        simp only [List.getLast?_singleton, Option.some.injEq] at hd
        rw [← hd, hnil rfl]
      | cons e es =>
        apply hlast d
        simpa [List.getLast?_cons_cons] using hd

/-- Requests against a single-entry record at the limit, while the entry is inside the
window of line 57: each is denied and the store does not change. -/
theorem runWith_single_deny (maxCount : Int) (ip : String) (t1 c0 exp : Int)
    (h0 : 0 ≤ c0) (hge : maxCount ≤ c0) (hmax : c0 < 2 ^ 63) (hexp : t1 + 86400 ≤ exp) :
    ∀ (cs : List Call) (s : Store),
      s ip = some ⟨[⟨t1, c0⟩], exp⟩ →
      (∀ c ∈ cs, c.ip = ip ∧ c.getFails = false ∧ c.now < t1 + 86400
        ∧ c.now57 < t1 + 86400) →
      (runWith maxCount s cs).1 = List.replicate cs.length (some Decision.Deny)
        ∧ (runWith maxCount s cs).2 = s := by
  intro cs
  induction cs with
  | nil => intro s _ _; exact ⟨rfl, rfl⟩
  | cons c cs ih =>
    intro s hs hall
    obtain ⟨hip, hg, hnow, h57⟩ := hall c (List.mem_cons_self _ _)
    have hstep := stepWith_single_deny maxCount s c t1 c0 exp (by rw [hip]; exact hs) hg
      (by omega) (by omega) h0 hge hmax
    obtain ⟨hdec, hfin⟩ := ih s hs (fun d hd => hall d (List.mem_cons_of_mem _ hd))
    exact ⟨by simp [runWith, hstep, hdec, List.replicate_succ], by simp [runWith, hstep, hfin]⟩

theorem runWith_append (maxCount : Int) (cs ds : List Call) (s : Store) :
    runWith maxCount s (cs ++ ds)
      = ((runWith maxCount s cs).1 ++ (runWith maxCount (runWith maxCount s cs).2 ds).1,
          (runWith maxCount (runWith maxCount s cs).2 ds).2) := by
  induction cs generalizing s with
  | nil => simp [runWith]
  | cons c cs ih => simp [runWith, ih]

/-- A first request of a fresh client, stamped `c1.now`, followed by requests whose
readings of lines 57 and 75 come less than one window, respectively one log interval,
after that stamp, up to the limit: all are admitted and the record is the single entry
of the first request with the number of requests as its count. -/
theorem runWith_fresh_bucket (maxCount : Int) (ip : String) (s : Store) (c1 : Call)
    (more : List Call) (hmax : maxCount < 2 ^ 63) (hs : s ip = none)
    (hlen : (more.length : Int) + 1 ≤ maxCount)
    (h1 : c1.ip = ip ∧ c1.getFails = false ∧ c1.setFails = false)
    (hall : ∀ c ∈ more, c.ip = ip ∧ c.getFails = false ∧ c.setFails = false
      ∧ c.now < c1.now + 86400 ∧ c.now57 < c1.now + 86400
      ∧ c1.now ≤ c.now75 ∧ c.now75 < c1.now + 3600) :
    (runWith maxCount s (c1 :: more)).1
        = List.replicate (more.length + 1) (some Decision.Allow)
      ∧ ∃ exp2, (runWith maxCount s (c1 :: more)).2 ip
            = some ⟨[⟨c1.now, (more.length : Int) + 1⟩], exp2⟩
          ∧ c1.now + 86400 ≤ exp2
          ∧ (∀ c, more.getLast? = some c → exp2 = c.now75 + 86400)
          ∧ (more = [] → exp2 = c1.now + 86400) := by
  obtain ⟨hip, hg, hw⟩ := h1
  have hstep := stepWith_fresh maxCount s c1 (by rw [hip]; exact hs) hg hw
  have hs2 : (redisSet s c1.now ⟨c1.ip, [⟨c1.now, 1⟩], 86400⟩) ip
      = some ⟨[⟨c1.now, 1⟩], c1.now + 86400⟩ := by
    rw [hip]; exact redisSet_same _ _ _ _ _
  obtain ⟨hdec, exp2, hfin, hexp2, hlast, hnil⟩ :=
    runWith_single_coalesce maxCount ip c1.now hmax more
      (redisSet s c1.now ⟨c1.ip, [⟨c1.now, 1⟩], 86400⟩) 1 (c1.now + 86400) hs2
      (by omega) (by omega) (by omega) hall
  have hadd : (1 : Int) + (more.length : Int) = (more.length : Int) + 1 := by omega
  refine ⟨?_, exp2, ?_, hexp2, hlast, hnil⟩
  · simp [runWith, hstep, hdec, List.replicate_succ]
  · simp only [runWith, hstep, hfin, hadd]

/-! ## Threshold behaviour -/

/-- C5, counterexample: with the source limit of 110, the 110th of 110 requests made
by a fresh client in the same second is admitted, not denied. -/
theorem nth_request_admitted :
    (run emptyStore (List.replicate 110 (Call.ok 0 "A"))).1
        = List.replicate 110 (some Decision.Allow)
      ∧ (run emptyStore (List.replicate 110 (Call.ok 0 "A"))).1
        ≠ List.replicate 109 (some Decision.Allow) ++ [some Decision.Deny] := by
  have h : (run emptyStore (List.replicate 110 (Call.ok 0 "A"))).1
      = List.replicate 110 (some Decision.Allow) :=
    (runWith_fresh_bucket 110 "A" emptyStore (Call.ok 0 "A")
      (List.replicate 109 (Call.ok 0 "A")) (by norm_num) rfl (by simp) (by simp [Call.ok])
      (by
        intro c hc
        rw [List.eq_of_mem_replicate hc]
        simp [Call.ok])).1
  refine ⟨h, ?_⟩
  rw [h]
  decide

/-- C5, amended: with limit `N`, a fresh client whose first request is stamped `t1` and
whose next `N - 1` requests have all three clock readings in `[t1, t1 + 3600)` is
admitted `N` times and then holds the record `[{t1, N}]`; every further request whose
readings of lines 39 and 57 are before `t1 + 86400` (the key has not expired and the
entry is inside the window) is denied, and the denied requests leave the store as it
was after the `N`th request. -/
theorem threshold_boundary (N : Int) (ip : String) (s : Store) (c1 : Call)
    (more rest : List Call) (hmax : N < 2 ^ 63) (hs : s ip = none)
    (hlen : (more.length : Int) + 1 = N)
    (h1 : c1.ip = ip ∧ c1.getFails = false ∧ c1.setFails = false)
    (hmore : ∀ c ∈ more, c.ip = ip ∧ c.getFails = false ∧ c.setFails = false
      ∧ c1.now ≤ c.now ∧ c.now ≤ c.now57 ∧ c.now57 ≤ c.now75 ∧ c.now75 < c1.now + 3600)
    (hrest : ∀ c ∈ rest, c.ip = ip ∧ c.getFails = false ∧ c.now < c1.now + 86400
      ∧ c.now57 < c1.now + 86400) :
    (runWith N s (c1 :: more ++ rest)).1
        = List.replicate (more.length + 1) (some Decision.Allow)
          ++ List.replicate rest.length (some Decision.Deny)
      ∧ (runWith N s (c1 :: more ++ rest)).2 = (runWith N s (c1 :: more)).2
      ∧ ∃ exp, (runWith N s (c1 :: more)).2 ip = some ⟨[⟨c1.now, N⟩], exp⟩
          ∧ c1.now + 86400 ≤ exp := by
  obtain ⟨hdec, exp2, hfin, hexp2, _, _⟩ :=
    runWith_fresh_bucket N ip s c1 more hmax hs (by omega) h1
      (by
        intro c hc
        obtain ⟨a1, a2, a3, a4, a5, a6, a7⟩ := hmore c hc
        exact ⟨a1, a2, a3, by omega, by omega, by omega, a7⟩)
  rw [hlen] at hfin
  obtain ⟨hdeny, hsame⟩ :=
    runWith_single_deny N ip c1.now N exp2 (by omega) (le_refl _) hmax hexp2 rest
      (runWith N s (c1 :: more)).2 hfin hrest
  refine ⟨?_, ?_, exp2, hfin, hexp2⟩
  · rw [runWith_append]
    simp only [hdec, hdeny]
  · rw [runWith_append]
    exact hsame

/-- Witness for C5 (amended): limit 3; requests stamped 0, 10 and 3598, the last with the
clock at 3599 on lines 57 and 75; then requests at 5000 and at 86399. -/
theorem threshold_boundary_witness :
    (runWith 3 emptyStore
        (Call.ok 0 "A" :: [Call.ok 10 "A", Call.reads 3598 3599 3599 "A"]
          ++ [Call.ok 5000 "A", Call.ok 86399 "A"])).1
      = [some Decision.Allow, some Decision.Allow, some Decision.Allow,
          some Decision.Deny, some Decision.Deny] :=
  (threshold_boundary 3 "A" emptyStore (Call.ok 0 "A")
    [Call.ok 10 "A", Call.reads 3598 3599 3599 "A"]
    [Call.ok 5000 "A", Call.ok 86399 "A"] (by norm_num) rfl (by decide) (by decide)
    (by decide) (by decide)).1

/-- C6: with limit `N >= 1`, `N` calls of a fresh client all stamped `t`, the clock
staying in `[t, t + 3600)` through each of them, are each admitted and leave the record
`[{t, N}]`, which expires at `t + 86400` when the clock reads `t` throughout; one more
call stamped `t`, its reading of line 57 before `t + 86400`, is denied and leaves the
store unchanged. -/
theorem same_second_calls (N t : Int) (ip : String) (s : Store) (cs : List Call)
    (extra : Call) (hN : 1 ≤ N) (hmax : N < 2 ^ 63) (hs : s ip = none)
    (hlen : (cs.length : Int) = N)
    (hcs : ∀ c ∈ cs, c.now = t ∧ c.ip = ip ∧ c.getFails = false ∧ c.setFails = false
      ∧ t ≤ c.now57 ∧ c.now57 ≤ c.now75 ∧ c.now75 < t + 3600)
    (hextra : extra.now = t ∧ extra.ip = ip ∧ extra.getFails = false
      ∧ extra.now57 < t + 86400) :
    (runWith N s cs).1 = List.replicate cs.length (some Decision.Allow)
      ∧ (∃ exp, (runWith N s cs).2 ip = some ⟨[⟨t, N⟩], exp⟩ ∧ t + 86400 ≤ exp
          ∧ ((∀ c ∈ cs, c.now75 = t) → exp = t + 86400))
      ∧ stepWith N (runWith N s cs).2 extra = (some Decision.Deny, (runWith N s cs).2) := by
  cases cs with
  | nil => simp at hlen; omega
  | cons c1 more =>
    obtain ⟨hc1t, hc1ip, hc1g, hc1w, _, _, _⟩ := hcs c1 (List.mem_cons_self _ _)
    have hlen2 : (more.length : Int) + 1 = N := by
      simpa [List.length_cons] using hlen
    obtain ⟨hdec, exp2, hfin, hexp2, hlast, hnil⟩ :=
      runWith_fresh_bucket N ip s c1 more hmax hs (by omega) ⟨hc1ip, hc1g, hc1w⟩
        (by
          intro c hc
          obtain ⟨h1, h2, h3, h4, h5, h6, h7⟩ := hcs c (List.mem_cons_of_mem _ hc)
          exact ⟨h2, h3, h4, by omega, by omega, by omega, by omega⟩)
    rw [hlen2, hc1t] at hfin
    rw [hc1t] at hexp2 hnil
    refine ⟨by simpa using hdec, ⟨exp2, hfin, hexp2, ?_⟩, ?_⟩
    · intro hall
      cases hm : more with
      | nil => exact hnil hm
      | cons e es =>
        have hne : more ≠ [] := by rw [hm]; simp
        have hl := hlast _ (List.getLast?_eq_getLast more hne)
        have hmem := List.getLast_mem hne
        rw [hl, hall _ (List.mem_cons_of_mem _ hmem)]
    · obtain ⟨het, heip, heg, he57⟩ := hextra
      exact stepWith_single_deny N _ extra t N exp2 (by rw [heip]; exact hfin) heg
        (by omega) (by omega) (by omega) (le_refl _) hmax

/-- Witness for C6: limit 3, client A, four calls at second 0. -/
theorem same_second_calls_witness :
    (runWith 3 emptyStore [Call.ok 0 "A", Call.ok 0 "A", Call.ok 0 "A"]).1
        = [some Decision.Allow, some Decision.Allow, some Decision.Allow]
      ∧ (∃ exp, (runWith 3 emptyStore [Call.ok 0 "A", Call.ok 0 "A", Call.ok 0 "A"]).2 "A"
            = some ⟨[⟨0, 3⟩], exp⟩ ∧ 0 + 86400 ≤ exp
          ∧ ((∀ c ∈ [Call.ok 0 "A", Call.ok 0 "A", Call.ok 0 "A"], c.now75 = 0) →
              exp = 0 + 86400))
      ∧ (stepWith 3 (runWith 3 emptyStore [Call.ok 0 "A", Call.ok 0 "A", Call.ok 0 "A"]).2
          (Call.ok 0 "A")).1 = some Decision.Deny :=
  ⟨(same_second_calls 3 0 "A" emptyStore [Call.ok 0 "A", Call.ok 0 "A", Call.ok 0 "A"]
      (Call.ok 0 "A") (by norm_num) (by norm_num) rfl (by decide) (by decide) (by decide)).1,
    (same_second_calls 3 0 "A" emptyStore [Call.ok 0 "A", Call.ok 0 "A", Call.ok 0 "A"]
      (Call.ok 0 "A") (by norm_num) (by norm_num) rfl (by decide) (by decide) (by decide)).2.1,
    by
      rw [(same_second_calls 3 0 "A" emptyStore [Call.ok 0 "A", Call.ok 0 "A", Call.ok 0 "A"]
        (Call.ok 0 "A") (by norm_num) (by norm_num) rfl (by decide) (by decide)
        (by decide)).2.2]⟩

/-! ## Records with no entry inside the window -/

/-- C7: on a found record with no entry inside the window of line 57 (the empty record
included) the handler neither answers Allow nor writes `[{now, 1}]`: it indexes the
empty slice `requestsWithinWindow` and panics, issuing no write. -/
theorem aged_out_record_panics (now now57 now75 : Int) (ip : String)
    (data : List requestLog) (h : activeEntries now57 data = []) :
    RateLimiterUsingRedis now now57 now75 ip (GetReply.Val data) = (none, none) := by
  have ht : windowTotal now57 data = 0 := by simp [windowTotal, h, goSum]
  have hnot : ¬ windowTotal now57 data ≥ maxWindowRequestCount := by
    rw [ht]; simp [maxWindowRequestCount]
  unfold RateLimiterUsingRedis
  rw [limiter_val, if_neg hnot, h]
  rfl

/-- Witness for C7: the record `[{0, 2}]`, written at second 3599, met by a request at
second 86400. -/
theorem aged_out_record_panics_witness :
    activeEntries 86400 [⟨0, 2⟩] = []
      ∧ RateLimiterUsingRedis 86400 86400 86400 "A" (GetReply.Val [⟨0, 2⟩])
        = (none, none) :=
  ⟨by decide, aged_out_record_panics 86400 86400 86400 "A" [⟨0, 2⟩] (by decide)⟩

/-- C8: from the empty store, requests of one client at seconds 0, 3599 and 86400: the
third finds the record `[{0, 2}]` (its TTL runs until second 89999), no entry of which
is inside the window, and ends in a panic instead of one of the three decisions. -/
theorem third_call_panics :
    (run emptyStore [Call.ok 0 "A", Call.ok 3599 "A"]).2 "A" = some ⟨[⟨0, 2⟩], 89999⟩
      ∧ redisGet (run emptyStore [Call.ok 0 "A", Call.ok 3599 "A"]).2 (Call.ok 86400 "A")
        = GetReply.Val [⟨0, 2⟩]
      ∧ (run emptyStore [Call.ok 0 "A", Call.ok 3599 "A", Call.ok 86400 "A"]).1
        = [some Decision.Allow, some Decision.Allow, none] := by
  decide

/-! ## What is written back -/

theorem set_last_eq_dropLast_append (data : List requestLog) (x : requestLog)
    (h : data ≠ []) : data.set (data.length - 1) x = data.dropLast ++ [x] := by
  induction data with
  | nil => exact absurd rfl h
  | cons d ds ih =>
    cases ds with
    | nil => simp
    | cons e es =>
      have := ih (by simp)
      simp only [List.length_cons, Nat.add_sub_cancel] at this ⊢
      simp only [List.set_cons_succ, List.dropLast_cons₂, List.cons_append, this]

/-- The value of the `Set` the handler sends: the fresh record on `redis.Nil`; on a found
record the stored record with its last element overwritten by the last active entry,
count incremented, when the timestamp of that entry is greater than the reading of line
75 minus 3600, and otherwise with `{now, 1}` appended, `now` the reading of line 39. -/
theorem limiter_write_value (maxCount now now57 now75 : Int) (ip : String)
    (reply : GetReply) (cmd : SetCmd)
    (h : (limiter maxCount now now57 now75 ip reply).2 = some cmd) :
    cmd.key = ip ∧ cmd.ttl = 86400
      ∧ ((reply = GetReply.Nil ∧ cmd.value = [⟨now, 1⟩])
        ∨ ∃ data last, reply = GetReply.Val data
            ∧ ¬ windowTotal now57 data ≥ maxCount
            ∧ (activeEntries now57 data).getLast? = some last
            ∧ ((last.RequestTimeStamp > now75 - 3600
                  ∧ cmd.value = data.dropLast
                      ++ [⟨last.RequestTimeStamp, wrapInt (last.RequestCount + 1)⟩])
                ∨ (last.RequestTimeStamp ≤ now75 - 3600
                  ∧ cmd.value = data ++ [⟨now, 1⟩]))) := by
  cases reply with
  | Nil =>
    simp only [limiter, Option.some.injEq] at h
    rw [← h]
    exact ⟨rfl, by simp [windowSizeInHours, Hour], Or.inl ⟨rfl, rfl⟩⟩
  | Err => simp [limiter] at h
  | Val data =>
    rw [limiter_val] at h
    by_cases ht : windowTotal now57 data ≥ maxCount
    · simp [ht] at h
    · rw [if_neg ht] at h
      cases hl : (activeEntries now57 data).getLast? with
      | none => simp [logRequest, hl] at h
      | some last =>
        have hact : activeEntries now57 data ≠ [] := by
          intro hnil; simp [hnil] at hl
        have hdata : data ≠ [] := activeEntries_ne_nil_data hact
        by_cases hlog : last.RequestTimeStamp > now75 - 3600
        · have hlog2 : last.RequestTimeStamp > now75 - windowLogIntervalInHours * Hour := by
            simp only [windowLogIntervalInHours, Hour]; omega
          cases data with
          | nil => exact absurd rfl hdata
          | cons d ds =>
            simp only [logRequest, hl, hlog2, if_true, Option.some.injEq] at h
            rw [← h, set_last_eq_dropLast_append _ _ (by simp)]
            exact ⟨rfl, by simp [windowSizeInHours, Hour],
              Or.inr ⟨_, last, rfl, ht, hl, Or.inl ⟨hlog, rfl⟩⟩⟩
        · have hlog2 : ¬ last.RequestTimeStamp > now75 - windowLogIntervalInHours * Hour := by
            simp only [windowLogIntervalInHours, Hour]; omega
          simp only [logRequest, hl, hlog2, if_false, Option.some.injEq] at h
          rw [← h]
          exact ⟨rfl, by simp [windowSizeInHours, Hour],
            Or.inr ⟨_, last, rfl, ht, hl, Or.inr ⟨by omega, rfl⟩⟩⟩

theorem logRequest_write_allow (now now75 : Int) (ip : String) (data act : List requestLog)
    (cmd : SetCmd) (h : (logRequest now now75 ip data act).2 = some cmd) :
    (logRequest now now75 ip data act).1 = some Decision.Allow := by
  unfold logRequest at h ⊢
  cases hl : act.getLast? with
  | none => simp [hl] at h
  | some last =>
    simp only [hl] at h ⊢
    cases data with
    | nil =>
      split
      · rename_i hc; simp [hc] at h
      · rfl
    | cons d ds => split <;> rfl

/-- Whenever the handler sends a `Set` it answers Allow. -/
theorem limiter_write_allow (maxCount now now57 now75 : Int) (ip : String)
    (reply : GetReply) (cmd : SetCmd)
    (h : (limiter maxCount now now57 now75 ip reply).2 = some cmd) :
    (limiter maxCount now now57 now75 ip reply).1 = some Decision.Allow := by
  cases reply with
  | Nil => rfl
  | Err => simp [limiter] at h
  | Val data =>
    rw [limiter_val] at h ⊢
    by_cases ht : windowTotal now57 data ≥ maxCount
    · simp [ht] at h
    · rw [if_neg ht] at h ⊢
      exact logRequest_write_allow _ _ _ _ _ _ h

/-- An admitted request on a found record sends a `Set`. -/
theorem limiter_allow_write (maxCount now now57 now75 : Int) (ip : String)
    (data : List requestLog)
    (h : (limiter maxCount now now57 now75 ip (GetReply.Val data)).1 = some Decision.Allow) :
    ∃ cmd, (limiter maxCount now now57 now75 ip (GetReply.Val data)).2 = some cmd := by
  rw [limiter_val] at h ⊢
  by_cases ht : windowTotal now57 data ≥ maxCount
  · simp [ht] at h
  · rw [if_neg ht] at h ⊢
    unfold logRequest at h ⊢
    cases hl : (activeEntries now57 data).getLast? with
    | none => simp [hl] at h
    | some last =>
      simp only [hl] at h ⊢
      cases data with
      | nil =>
        split
        · rename_i hc; simp [hc] at h
        · exact ⟨_, rfl⟩
      | cons d ds => split <;> exact ⟨_, rfl⟩

/-- C9, counterexample: the record `[{0, 1}, {3600, 1}]` met at second 86400.  The
active entries are `[{3600, 1}]`, the request is admitted, and the record written is
`[{0, 1}, {3600, 1}, {86400, 1}]`: it keeps the entry `{0, 1}`, whose timestamp is not
greater than `now - 86400`. -/
theorem written_record_keeps_aged_entries :
    activeEntries 86400 [⟨0, 1⟩, ⟨3600, 1⟩] = [⟨3600, 1⟩]
      ∧ RateLimiterUsingRedis 86400 86400 86400 "A" (GetReply.Val [⟨0, 1⟩, ⟨3600, 1⟩])
        = (some Decision.Allow, some ⟨"A", [⟨0, 1⟩, ⟨3600, 1⟩, ⟨86400, 1⟩], 86400⟩)
      ∧ (⟨0, 1⟩ : requestLog) ∈ [(⟨0, 1⟩ : requestLog), ⟨3600, 1⟩, ⟨86400, 1⟩]
      ∧ (⟨0, 1⟩ : requestLog).RequestTimeStamp ≤ 86400 - 86400
      ∧ ([⟨0, 1⟩, ⟨3600, 1⟩, ⟨86400, 1⟩] : List requestLog)
        ≠ activeEntries 86400 [⟨0, 1⟩, ⟨3600, 1⟩] ++ [⟨86400, 1⟩]
      ∧ ([⟨0, 1⟩, ⟨3600, 1⟩, ⟨86400, 1⟩] : List requestLog) ≠ [⟨3600, 1 + 1⟩] := by
  decide

/-- C9, amended: when a request on a found record is admitted, the record written is
the whole stored record, entries outside the window included, in which either the last
element is overwritten by the last entry inside the window of line 57 with its count
incremented by one in Go `int` arithmetic (when the timestamp of that entry is greater
than the clock reading of line 75 minus 3600), or the entry `{now, 1}` is appended
(otherwise), `now` being the clock reading of line 39; it is written for the key of the
client with a TTL of 86400 s. -/
theorem written_record_is_whole_record (now now57 now75 : Int) (ip : String)
    (data : List requestLog)
    (h : (RateLimiterUsingRedis now now57 now75 ip (GetReply.Val data)).1
      = some Decision.Allow) :
    ∃ last, (activeEntries now57 data).getLast? = some last
      ∧ (last.RequestTimeStamp > now75 - 3600 →
          (RateLimiterUsingRedis now now57 now75 ip (GetReply.Val data)).2
            = some ⟨ip, data.dropLast
                ++ [⟨last.RequestTimeStamp, wrapInt (last.RequestCount + 1)⟩], 86400⟩)
      ∧ (¬ last.RequestTimeStamp > now75 - 3600 →
          (RateLimiterUsingRedis now now57 now75 ip (GetReply.Val data)).2
            = some ⟨ip, data ++ [⟨now, 1⟩], 86400⟩) := by
  unfold RateLimiterUsingRedis at h ⊢
  obtain ⟨cmd, hcmd⟩ := limiter_allow_write _ _ _ _ _ _ h
  obtain ⟨hkey, httl, hcase⟩ := limiter_write_value _ _ _ _ _ _ _ hcmd
  rcases hcase with ⟨hnil, _⟩ | ⟨data2, last, hval, _, hl, hc⟩
  · exact absurd hnil (by simp)
  · have hd : data2 = data := by injection hval with h1; exact h1.symm
    subst hd
    refine ⟨last, hl, ?_, ?_⟩
    · intro hlog
      rcases hc with ⟨_, hv⟩ | ⟨hle, _⟩
      · rw [hcmd, ← hkey, ← httl, ← hv]
      · omega
    · intro hlog
      rcases hc with ⟨hgt, _⟩ | ⟨_, hv⟩
      · exact absurd hgt hlog
      · rw [hcmd, ← hkey, ← httl, ← hv]

/-- Witness for C9 (amended): the record `[{0, 1}]` met by a request stamped 3599 while
the clock reads 3600 on lines 57 and 75: `{3599, 1}` is appended. -/
theorem written_record_is_whole_record_witness :
    (RateLimiterUsingRedis 3599 3600 3600 "A" (GetReply.Val [⟨0, 1⟩])).1
        = some Decision.Allow
      ∧ ∃ last, (activeEntries 3600 [⟨0, 1⟩]).getLast? = some last
        ∧ (last.RequestTimeStamp > 3600 - 3600 →
            (RateLimiterUsingRedis 3599 3600 3600 "A" (GetReply.Val [⟨0, 1⟩])).2
              = some ⟨"A", ([⟨0, 1⟩] : List requestLog).dropLast
                  ++ [⟨last.RequestTimeStamp, wrapInt (last.RequestCount + 1)⟩], 86400⟩)
        ∧ (¬ last.RequestTimeStamp > 3600 - 3600 →
            (RateLimiterUsingRedis 3599 3600 3600 "A" (GetReply.Val [⟨0, 1⟩])).2
              = some ⟨"A", [⟨0, 1⟩] ++ [⟨3599, 1⟩], 86400⟩) :=
  ⟨by decide,
    written_record_is_whole_record 3599 3600 3600 "A" [⟨0, 1⟩] (by decide)⟩

/-! ## Sequences of calls of one client -/

theorem activeSum_nil (θ : Int) : activeSum θ [] = 0 := rfl

theorem activeSum_append (θ : Int) (l1 l2 : List requestLog) :
    activeSum θ (l1 ++ l2) = activeSum θ l1 + activeSum θ l2 := by
  simp [activeSum, List.filter_append]

theorem activeSum_singleton (θ : Int) (e : requestLog) :
    activeSum θ [e] = if e.RequestTimeStamp > θ then e.RequestCount else 0 := by
  by_cases h : e.RequestTimeStamp > θ
  · simp [activeSum, h]
  · simp [activeSum, h]

theorem activeSum_cons (θ : Int) (e : requestLog) (es : List requestLog) :
    activeSum θ (e :: es)
      = (if e.RequestTimeStamp > θ then e.RequestCount else 0) + activeSum θ es := by
  rw [← activeSum_singleton]
  exact activeSum_append θ [e] es

theorem activeSum_nonneg (θ : Int) (l : List requestLog) (h : ∀ e ∈ l, 1 ≤ e.RequestCount) :
    0 ≤ activeSum θ l := by
  unfold activeSum
  apply List.sum_nonneg
  intro n hn
  obtain ⟨e, he, rfl⟩ := List.mem_map.mp hn
  have := h e (List.mem_filter.mp he).1
  omega

/-- A later window start counts less. -/
theorem activeSum_anti (θ1 θ2 : Int) (hθ : θ1 ≤ θ2) (l : List requestLog)
    (h : ∀ e ∈ l, 1 ≤ e.RequestCount) : activeSum θ2 l ≤ activeSum θ1 l := by
  induction l with
  | nil => simp [activeSum]
  | cons e es ih =>
    have he : 1 ≤ e.RequestCount := h e (List.mem_cons_self _ _)
    have ih2 := ih (fun d hd => h d (List.mem_cons_of_mem _ hd))
    rw [activeSum_cons θ1, activeSum_cons θ2]
    by_cases h2 : e.RequestTimeStamp > θ2
    · have h1 : e.RequestTimeStamp > θ1 := by omega
      rw [if_pos h1, if_pos h2]; omega
    · rw [if_neg h2]
      by_cases h1 : e.RequestTimeStamp > θ1
      · rw [if_pos h1]; omega
      · rw [if_neg h1]; omega

theorem creditSum_nil (θ : Int) : creditSum θ [] = 0 := rfl

theorem creditSum_append (θ : Int) (l1 l2 : List requestLog) :
    creditSum θ (l1 ++ l2) = creditSum θ l1 + creditSum θ l2 := by
  simp [creditSum]

theorem creditSum_singleton (θ : Int) (e : requestLog) : creditSum θ [e] = credit θ e := by
  simp [creditSum]

theorem creditSum_cons (θ : Int) (e : requestLog) (es : List requestLog) :
    creditSum θ (e :: es) = credit θ e + creditSum θ es := by
  simp [creditSum]

theorem credit_nonneg (θ : Int) (e : requestLog) (h : 1 ≤ e.RequestCount) :
    0 ≤ credit θ e := by
  unfold credit
  split_ifs <;> omega

theorem creditSum_nonneg (θ : Int) (l : List requestLog) (h : ∀ e ∈ l, 1 ≤ e.RequestCount) :
    0 ≤ creditSum θ l := by
  unfold creditSum
  apply List.sum_nonneg
  intro n hn
  obtain ⟨e, he, rfl⟩ := List.mem_map.mp hn
  exact credit_nonneg θ e (h e he)

/-- The credit from `θ1` on is covered by the counts later than `θ2`, or it is at least
one below the counts later than `θ1`, when `θ1 <= θ2 < θ1 + 3600`. -/
theorem creditSum_le (θ1 θ2 : Int) (h12 : θ1 ≤ θ2) (h21 : θ2 < θ1 + 3600)
    (l : List requestLog) (h : ∀ e ∈ l, 1 ≤ e.RequestCount) :
    creditSum θ1 l ≤ activeSum θ1 l
      ∧ (creditSum θ1 l ≤ activeSum θ2 l ∨ creditSum θ1 l + 1 ≤ activeSum θ1 l) := by
  induction l with
  | nil => simp [creditSum, activeSum]
  | cons e es ih =>
    have he : 1 ≤ e.RequestCount := h e (List.mem_cons_self _ _)
    obtain ⟨ih1, ih2⟩ := ih (fun d hd => h d (List.mem_cons_of_mem _ hd))
    rw [creditSum_cons, activeSum_cons θ1, activeSum_cons θ2]
    unfold credit
    by_cases h2 : e.RequestTimeStamp > θ2
    · have h1 : e.RequestTimeStamp > θ1 := by omega
      rw [if_pos h1, if_pos h1, if_pos h2]
      split_ifs <;> constructor <;> omega
    · by_cases h1 : e.RequestTimeStamp > θ1
      · have h3 : ¬ e.RequestTimeStamp ≥ θ1 + 3600 := by omega
        rw [if_pos h1, if_pos h1, if_neg h2, if_neg h3]
        constructor <;> omega
      · rw [if_neg h1, if_neg h1, if_neg h2]
        constructor <;> omega

/-- On a record with positive counts whose exact running total fits, the Go `int`
running total is the exact one. -/
theorem windowTotal_eq_activeSum (t : Int) (data : List requestLog)
    (hpos : ∀ e ∈ data, 1 ≤ e.RequestCount) (hfit : activeSum (t - 86400) data < 2 ^ 63) :
    windowTotal t data = activeSum (t - 86400) data := by
  unfold windowTotal
  apply goSum_exact _ _ hfit
  intro n hn
  obtain ⟨e, he, rfl⟩ := List.mem_map.mp hn
  have := hpos e (List.mem_filter.mp he).1
  omega

/-- On a record in ascending order with an entry inside the window, the last entry
inside the window is the last entry of the record. -/
theorem last_active_is_last (t : Int) (data : List requestLog)
    (hsp : data.Pairwise (fun a b => a.RequestTimeStamp ≤ b.RequestTimeStamp))
    (hact : activeEntries t data ≠ []) :
    ∃ init last, data = init ++ [last]
      ∧ (activeEntries t data).getLast? = some last
      ∧ last.RequestTimeStamp > t - 86400 := by
  have hdata : data ≠ [] := activeEntries_ne_nil_data hact
  obtain ⟨init, last, rfl⟩ : ∃ init last, data = init ++ [last] :=
    ⟨data.dropLast, data.getLast hdata, (List.dropLast_append_getLast hdata).symm⟩
  have hlast : last.RequestTimeStamp > t - 86400 := by
    obtain ⟨e, he⟩ := List.exists_mem_of_ne_nil _ hact
    have hef := List.mem_filter.mp he
    have hets : e.RequestTimeStamp > t - 86400 := by simpa using hef.2
    rcases List.mem_append.mp hef.1 with hin | hin
    · have := (List.pairwise_append.mp hsp).2.2 e hin last (List.mem_singleton_self _)
      omega
    · rw [List.mem_singleton.mp hin] at hets
      exact hets
  refine ⟨init, last, rfl, ?_, hlast⟩
  simp [activeEntries, List.filter_append, hlast]

/-- Entries at least `3600 - σ` s apart, `σ <= 3600`, are in ascending order. -/
theorem spaced_ascending (σ : Int) (hσ : σ ≤ 3600) (data : List requestLog)
    (h : data.Pairwise (fun a b => a.RequestTimeStamp + 3600 ≤ b.RequestTimeStamp + σ)) :
    data.Pairwise (fun a b => a.RequestTimeStamp ≤ b.RequestTimeStamp) :=
  List.Pairwise.imp (fun hab => by omega) h

theorem countP_append_singleton (adm : List Int) (now : Int) (p : Int → Bool) :
    (adm ++ [now]).countP p = adm.countP p + (if p now then 1 else 0) := by
  simp [List.countP_append, List.countP_cons]

/-- Admitting a request at `now` keeps the bound on every interval
`[t - 86400 + 3600, t]` provided fewer than `maxCount` admitted requests are at
`now - 86400 + 3600` or later. -/
theorem quota_append (maxCount : Int) (adm : List Int) (now : Int)
    (hq : ∀ t, ((adm.countP (fun a => decide (t - 86400 + 3600 ≤ a ∧ a ≤ t)) : Nat) : Int)
      ≤ maxCount)
    (hrecent : ((adm.countP (fun a => decide (now - 86400 + 3600 ≤ a)) : Nat) : Int)
      < maxCount) :
    ∀ t, (((adm ++ [now]).countP (fun a => decide (t - 86400 + 3600 ≤ a ∧ a ≤ t)) : Nat) : Int)
      ≤ maxCount := by
  intro t
  rw [countP_append_singleton]
  by_cases hp : t - 86400 + 3600 ≤ now ∧ now ≤ t
  · have hmono : adm.countP (fun a => decide (t - 86400 + 3600 ≤ a ∧ a ≤ t))
        ≤ adm.countP (fun a => decide (now - 86400 + 3600 ≤ a)) := by
      apply List.countP_mono_left
      intro a _ ha
      simp only [decide_eq_true_eq] at ha ⊢
      omega
    simp only [hp, and_self, decide_True, if_true]
    push_cast
    have : ((adm.countP (fun a => decide (t - 86400 + 3600 ≤ a ∧ a ≤ t)) : Nat) : Int)
        ≤ ((adm.countP (fun a => decide (now - 86400 + 3600 ≤ a)) : Nat) : Int) := by
      exact_mod_cast hmono
    omega
  · have hq2 := hq t
    simp only [hp, decide_False, Bool.false_eq_true, if_false, Nat.add_zero]
    exact hq2

theorem countP_recent_eq_zero (adm : List Int) (now θ : Int)
    (hadm : ∀ a ∈ adm, a ≤ now - 86400) (hθ : now - 86400 ≤ θ) :
    adm.countP (fun a => decide (θ + 3600 ≤ a)) = 0 := by
  rw [List.countP_eq_zero]
  intro a ha
  have := hadm a ha
  simp only [decide_eq_true_eq]
  omega

theorem stepWith_nil (maxCount : Int) (s : Store) (c : Call)
    (hget : redisGet s c = GetReply.Nil) (hw : c.setFails = false) :
    stepWith maxCount s c
      = (some Decision.Allow, redisSet s c.now ⟨c.ip, [⟨c.now, 1⟩], 86400⟩) := by
  simp [stepWith, hget, limiter, applyWrite, hw, setSecond, windowSizeInHours, Hour]

theorem stepWith_err (maxCount : Int) (s : Store) (c : Call)
    (hget : redisGet s c = GetReply.Err) :
    stepWith maxCount s c = (some Decision.StoreUnavailable, s) := by
  simp [stepWith, hget, limiter, applyWrite]

theorem stepWith_val_deny (maxCount : Int) (s : Store) (c : Call) (data : List requestLog)
    (hget : redisGet s c = GetReply.Val data) (ht : windowTotal c.now57 data ≥ maxCount) :
    stepWith maxCount s c = (some Decision.Deny, s) := by
  simp only [stepWith, hget, limiter_val, if_pos ht, applyWrite]

theorem stepWith_val_panic (maxCount : Int) (s : Store) (c : Call) (data : List requestLog)
    (hget : redisGet s c = GetReply.Val data) (ht : ¬ windowTotal c.now57 data ≥ maxCount)
    (hact : activeEntries c.now57 data = []) :
    stepWith maxCount s c = (none, s) := by
  simp only [stepWith, hget, limiter_val, if_neg ht, hact, logRequest, List.getLast?_nil,
    applyWrite]

theorem stepWith_val_coalesce (maxCount : Int) (s : Store) (c : Call)
    (init : List requestLog) (last : requestLog)
    (hget : redisGet s c = GetReply.Val (init ++ [last]))
    (ht : ¬ windowTotal c.now57 (init ++ [last]) ≥ maxCount)
    (hlast : (activeEntries c.now57 (init ++ [last])).getLast? = some last)
    (hlog : last.RequestTimeStamp > c.now75 - 3600) (hw : c.setFails = false) :
    stepWith maxCount s c
      = (some Decision.Allow,
          redisSet s c.now75
            ⟨c.ip, init ++ [⟨last.RequestTimeStamp, wrapInt (last.RequestCount + 1)⟩],
              86400⟩) := by
  have hlog2 : last.RequestTimeStamp > c.now75 - windowLogIntervalInHours * Hour := by
    simp only [windowLogIntervalInHours, Hour]; omega
  have hne : init ++ [last] ≠ [] := by simp
  have hset := set_last_eq_dropLast_append (init ++ [last])
    ⟨last.RequestTimeStamp, wrapInt (last.RequestCount + 1)⟩ hne
  rw [List.dropLast_concat] at hset
  simp only [stepWith, hget, limiter_val, if_neg ht, logRequest, hlast, hlog2, if_true,
    setSecond]
  cases hd : init ++ [last] with
  | nil => exact absurd hd hne
  | cons d ds =>
    rw [hd] at hset
    simp only [hset, applyWrite, hw, windowSizeInHours, Hour]
    norm_num

theorem stepWith_val_append (maxCount : Int) (s : Store) (c : Call)
    (data : List requestLog) (last : requestLog)
    (hget : redisGet s c = GetReply.Val data)
    (ht : ¬ windowTotal c.now57 data ≥ maxCount)
    (hlast : (activeEntries c.now57 data).getLast? = some last)
    (hlog : ¬ last.RequestTimeStamp > c.now75 - 3600) (hw : c.setFails = false) :
    stepWith maxCount s c
      = (some Decision.Allow, redisSet s c.now75 ⟨c.ip, data ++ [⟨c.now, 1⟩], 86400⟩) := by
  have hlog2 : ¬ last.RequestTimeStamp > c.now75 - windowLogIntervalInHours * Hour := by
    simp only [windowLogIntervalInHours, Hour]; omega
  simp only [stepWith, hget, limiter_val, if_neg ht, logRequest, hlast, hlog2, if_false,
    setSecond]
  simp only [applyWrite, hw, windowSizeInHours, Hour]
  norm_num

/-- The record written for a client with nothing stored satisfies the invariant. -/
theorem recordInv_fresh (σ : Int) (adm : List Int) (now : Int)
    (hadm : ∀ a ∈ adm, a ≤ now - 86400) :
    RecordInv σ (adm ++ [now]) ⟨[⟨now, 1⟩], now + 86400⟩ where
  adm_le := by
    intro a ha
    rcases List.mem_append.mp ha with h | h
    · have := hadm a h
      simp only
      omega
    · rw [List.mem_singleton.mp h]
      simp
  ts_le := by
    intro e he
    rw [List.mem_singleton.mp he]
    simp
  count_pos := by
    intro e he
    rw [List.mem_singleton.mp he]
  spaced := List.pairwise_singleton _ _
  attributed := by
    intro θ hθ
    simp only at hθ
    rw [countP_append_singleton, countP_recent_eq_zero adm now θ hadm (by omega),
      creditSum_singleton]
    simp only [decide_eq_true_eq, credit]
    by_cases h : θ + 3600 ≤ now
    · have h2 : now > θ := by omega
      have h3 : now ≥ θ + 3600 := h
      simp [h, h2, h3]
    · simp only [h, if_false]
      split_ifs <;> simp

/-- The record written when the request joins the last bucket satisfies the invariant.
`now` is the stamp of the request, `now75` the second of the `Set`. -/
theorem recordInv_coalesce (σ : Int) (adm : List Int) (now now75 exp : Int)
    (init : List requestLog) (last : requestLog)
    (hinv : RecordInv σ adm ⟨init ++ [last], exp⟩) (hnow : exp - 86400 ≤ now)
    (h75 : now ≤ now75) (hlog : last.RequestTimeStamp > now75 - 3600) :
    RecordInv σ (adm ++ [now])
      ⟨init ++ [⟨last.RequestTimeStamp, last.RequestCount + 1⟩], now75 + 86400⟩ where
  adm_le := by
    intro a ha
    rcases List.mem_append.mp ha with h | h
    · have := hinv.adm_le a h
      simp only at this ⊢
      omega
    · rw [List.mem_singleton.mp h]
      simp only
      omega
  ts_le := by
    intro e he
    simp only at he ⊢
    rcases List.mem_append.mp he with h | h
    · have := hinv.ts_le e (List.mem_append_left _ h)
      simp only at this
      omega
    · rw [List.mem_singleton.mp h]
      have := hinv.ts_le last (List.mem_append_right _ (List.mem_singleton_self _))
      simp only at this ⊢
      omega
  count_pos := by
    intro e he
    simp only at he
    rcases List.mem_append.mp he with h | h
    · exact hinv.count_pos e (List.mem_append_left _ h)
    · rw [List.mem_singleton.mp h]
      have := hinv.count_pos last (List.mem_append_right _ (List.mem_singleton_self _))
      simp only
      omega
  spaced := by
    have hsp := List.pairwise_append.mp hinv.spaced
    simp only at hsp ⊢
    refine List.pairwise_append.mpr ⟨hsp.1, List.pairwise_singleton _ _, ?_⟩
    intro a ha b hb
    rw [List.mem_singleton.mp hb]
    exact hsp.2.2 a ha last (List.mem_singleton_self _)
  attributed := by
    intro θ hθ
    simp only at hθ
    have hold := hinv.attributed θ (by simp only; omega)
    simp only [creditSum_append, creditSum_singleton] at hold ⊢
    rw [countP_append_singleton]
    simp only [decide_eq_true_eq]
    have hpos := hinv.count_pos last (List.mem_append_right _ (List.mem_singleton_self _))
    unfold credit at hold ⊢
    simp only at hold ⊢
    by_cases h : θ + 3600 ≤ now
    · have h2 : last.RequestTimeStamp > θ := by omega
      rw [if_pos h2] at hold
      rw [if_pos h, if_pos h2]
      push_cast
      split_ifs at hold ⊢ <;> omega
    · rw [if_neg h]
      simp only [Nat.add_zero]
      split_ifs at hold ⊢ <;> omega

/-- The record written when the request opens a new bucket satisfies the invariant.
`now` is the stamp of the request, `now75` the second of the `Set`. -/
theorem recordInv_append (σ : Int) (hσ : σ ≤ 3600) (adm : List Int) (now now75 exp : Int)
    (init : List requestLog) (last : requestLog)
    (hinv : RecordInv σ adm ⟨init ++ [last], exp⟩) (hnow : exp - 86400 ≤ now)
    (h75 : now ≤ now75) (hskew : now75 ≤ now + σ)
    (hlog : ¬ last.RequestTimeStamp > now75 - 3600) :
    RecordInv σ (adm ++ [now]) ⟨init ++ [last] ++ [⟨now, 1⟩], now75 + 86400⟩ where
  adm_le := by
    intro a ha
    rcases List.mem_append.mp ha with h | h
    · have := hinv.adm_le a h
      simp only at this ⊢
      omega
    · rw [List.mem_singleton.mp h]
      simp only
      omega
  ts_le := by
    intro e he
    simp only at he ⊢
    rcases List.mem_append.mp he with h | h
    · have := hinv.ts_le e h
      simp only at this
      omega
    · rw [List.mem_singleton.mp h]
      simp only
      omega
  count_pos := by
    intro e he
    simp only at he
    rcases List.mem_append.mp he with h | h
    · exact hinv.count_pos e h
    · rw [List.mem_singleton.mp h]
  spaced := by
    have hsp := List.pairwise_append.mp hinv.spaced
    simp only at hsp ⊢
    refine List.pairwise_append.mpr ⟨hinv.spaced, List.pairwise_singleton _ _, ?_⟩
    intro a ha b hb
    rw [List.mem_singleton.mp hb]
    simp only
    rcases List.mem_append.mp ha with h | h
    · have := hsp.2.2 a h last (List.mem_singleton_self _)
      omega
    · rw [List.mem_singleton.mp h]
      omega
  attributed := by
    intro θ hθ
    simp only at hθ
    have hold := hinv.attributed θ (by simp only; omega)
    simp only at hold ⊢
    rw [creditSum_append, creditSum_singleton, countP_append_singleton]
    simp only [decide_eq_true_eq, credit]
    by_cases h : θ + 3600 ≤ now
    · have h2 : now > θ := by omega
      have h3 : now ≥ θ + 3600 := h
      rw [if_pos h, if_pos h2, if_pos h3]
      push_cast
      omega
    · rw [if_neg h]
      simp only [Nat.add_zero]
      split_ifs <;> omega

theorem recordInv_forget (σ : Int) (adm : List Int) (slot : Slot)
    (h : RecordInv σ adm slot) : RecordInv σ [] slot where
  adm_le := by intro a ha; simp at ha
  ts_le := h.ts_le
  count_pos := h.count_pos
  spaced := h.spaced
  attributed := by
    intro θ _
    simp only [List.countP_nil, Nat.cast_zero]
    exact creditSum_nonneg θ slot.value h.count_pos

theorem runInv_later (maxCount σ : Int) (ip : String) (s : Store) (adm : List Int)
    (tlast tw t2 tw2 : Int) (hinv : RunInv maxCount σ ip s adm tlast tw) (h : tlast ≤ t2)
    (hw1 : tw ≤ tw2) (hw2 : tw2 ≤ t2) :
    RunInv maxCount σ ip s adm t2 tw2 := by
  obtain ⟨hq, hnone, hsome⟩ := hinv
  refine ⟨hq, hnone, ?_⟩
  intro slot hs
  obtain ⟨h1, h2, h3, h4⟩ := hsome slot hs
  have hanti := activeSum_anti (tw - 86400) (tw2 - 86400) (by omega) slot.value h4.count_pos
  exact ⟨by omega, hw2, by omega, h4⟩

theorem runInv_write (maxCount σ : Int) (ip : String) (s : Store) (adm2 : List Int)
    (t tl tw : Int) (v : List requestLog)
    (hq : ∀ t, ((adm2.countP (fun a => decide (t - 86400 + 3600 ≤ a ∧ a ≤ t)) : Nat) : Int)
      ≤ maxCount)
    (htl : t ≤ tl) (htw : tw ≤ tl) (htot : activeSum (tw - 86400) v ≤ maxCount)
    (hrec : RecordInv σ adm2 ⟨v, t + 86400⟩) :
    RunInv maxCount σ ip (redisSet s t ⟨ip, v, 86400⟩) adm2 tl tw := by
  refine ⟨hq, ?_, ?_⟩
  · intro h
    rw [redisSet_same] at h
    exact absurd h (by simp)
  · intro slot hs
    rw [redisSet_same] at hs
    have hslot : slot = ⟨v, t + 86400⟩ := (Option.some.inj hs).symm
    subst hslot
    exact ⟨by simp only; omega, htw, htot, hrec⟩

/-- Fewer than `maxCount` admitted requests are at `now - 86400 + 3600` or later when
the request stamped `now` passes the check of line 69 at the reading `now57`. -/
theorem recent_below_limit (maxCount σ : Int) (adm : List Int) (slot : Slot)
    (now now57 tw : Int) (hrec : RecordInv σ adm slot)
    (hwritten : slot.expiresAt - 86400 ≤ now) (htw : tw ≤ now)
    (htot : activeSum (tw - 86400) slot.value ≤ maxCount)
    (h57 : now ≤ now57) (hskew : now57 < now + 3600)
    (hlt : activeSum (now57 - 86400) slot.value < maxCount) :
    ((adm.countP (fun a => decide (now - 86400 + 3600 ≤ a)) : Nat) : Int) < maxCount := by
  have hattr := hrec.attributed (now - 86400) (by omega)
  obtain ⟨_, hcase⟩ := creditSum_le (now - 86400) (now57 - 86400) (by omega) (by omega)
    slot.value hrec.count_pos
  have hanti := activeSum_anti (tw - 86400) (now - 86400) (by omega) slot.value
    hrec.count_pos
  rcases hcase with h | h <;> omega

/-- One call of the client keeps the invariant; its request time joins the admitted
ones when it is answered Allow. -/
theorem stepWith_inv (maxCount : Int) (hN : 1 ≤ maxCount) (hmax : maxCount < 2 ^ 63)
    (σ : Int) (hσ : σ < 3600)
    (ip : String) (s : Store) (adm : List Int) (tlast tw : Int) (c : Call)
    (hinv : RunInv maxCount σ ip s adm tlast tw) (hip : c.ip = ip)
    (hw : c.setFails = false) (hnow : tlast ≤ c.now) (htimed : c.timed σ) :
    RunInv maxCount σ ip (stepWith maxCount s c).2
      (adm ++ admittedTimes [c] [(stepWith maxCount s c).1]) c.now75 c.now57 := by
  obtain ⟨h57, h75, hskew⟩ := htimed
  have hunch : ∀ d, d ≠ some Decision.Allow → stepWith maxCount s c = (d, s) →
      RunInv maxCount σ ip (stepWith maxCount s c).2
        (adm ++ admittedTimes [c] [(stepWith maxCount s c).1]) c.now75 c.now57 := by
    intro d hd hst
    rw [hst]
    simp only [admittedTimes, if_neg hd, List.append_nil]
    obtain ⟨hq, hnone, hsome⟩ := hinv
    refine ⟨hq, hnone, ?_⟩
    intro slot hs
    obtain ⟨h1, h2, h3, h4⟩ := hsome slot hs
    have hanti := activeSum_anti (tw - 86400) (c.now57 - 86400) (by omega) slot.value
      h4.count_pos
    exact ⟨by omega, h75, by omega, h4⟩
  obtain ⟨hq, hnone, hsome⟩ := hinv
  by_cases hg : c.getFails = true
  · have hget : redisGet s c = GetReply.Err := by simp [redisGet, hg]
    exact hunch _ (by decide) (stepWith_err _ _ _ hget)
  · have hg2 : c.getFails = false := by simpa using hg
    have hfresh : redisGet s c = GetReply.Nil → (∀ a ∈ adm, a ≤ c.now - 86400) →
        RunInv maxCount σ ip (stepWith maxCount s c).2
          (adm ++ admittedTimes [c] [(stepWith maxCount s c).1]) c.now75 c.now57 := by
      intro hget hadm
      rw [stepWith_nil _ _ _ hget hw, hip]
      simp only [admittedTimes, if_true]
      apply runInv_write
      · apply quota_append _ _ _ hq
        rw [countP_recent_eq_zero adm c.now (c.now - 86400) hadm (le_refl _)]
        simp only [Nat.cast_zero]
        omega
      · omega
      · exact h75
      · rw [activeSum_singleton]
        simp only
        split_ifs <;> omega
      · exact recordInv_fresh _ _ _ hadm
    cases hs : s ip with
    | none =>
      have hget : redisGet s c = GetReply.Nil := by simp [redisGet, hg2, hip, hs]
      apply hfresh hget
      rw [hnone hs]
      simp
    | some slot =>
      obtain ⟨hwl, htwl, htot, hrec⟩ := hsome slot hs
      by_cases hexp : slot.expiresAt < c.now ∨ (slot.expiresAt = c.now ∧ c.lapsed = true)
      · have hget : redisGet s c = GetReply.Nil := by simp [redisGet, hg2, hip, hs, hexp]
        apply hfresh hget
        intro a ha
        have := hrec.adm_le a ha
        omega
      · have hget : redisGet s c = GetReply.Val slot.value := by
          simp [redisGet, hg2, hip, hs, hexp]
        obtain ⟨value, exp⟩ := slot
        simp only at hget hwl hexp htot
        have hanti := activeSum_anti (tw - 86400) (c.now57 - 86400) (by omega) value
          hrec.count_pos
        have htotal := windowTotal_eq_activeSum c.now57 value hrec.count_pos (by omega)
        by_cases ht : windowTotal c.now57 value ≥ maxCount
        · exact hunch _ (by decide) (stepWith_val_deny _ _ _ _ hget ht)
        · by_cases hact : activeEntries c.now57 value = []
          · exact hunch _ (by decide) (stepWith_val_panic _ _ _ _ hget ht hact)
          · obtain ⟨init, last, hdata, hlast, hin⟩ :=
              last_active_is_last c.now57 value
                (spaced_ascending σ (by omega) _ hrec.spaced) hact
            subst hdata
            have hlt : activeSum (c.now57 - 86400) (init ++ [last]) < maxCount := by
              rw [← htotal]; omega
            have hrecent := recent_below_limit maxCount σ adm ⟨init ++ [last], exp⟩
              c.now c.now57 tw hrec (by simp only; omega) (by omega) htot h57 (by omega) hlt
            have hq2 := quota_append maxCount adm c.now hq hrecent
            by_cases hlog : last.RequestTimeStamp > c.now75 - 3600
            · have hcnt : last.RequestCount < maxCount := by
                have h1 := hlt
                rw [activeSum_append, activeSum_singleton, if_pos hin] at h1
                have h2 := activeSum_nonneg (c.now57 - 86400) init
                  (fun e he => hrec.count_pos e (List.mem_append_left _ he))
                omega
              have hpos := hrec.count_pos last
                (List.mem_append_right _ (List.mem_singleton_self _))
              have hwrap : wrapInt (last.RequestCount + 1) = last.RequestCount + 1 :=
                wrapInt_of_range _ (by omega) (by omega)
              rw [stepWith_val_coalesce _ _ _ _ _ hget ht hlast hlog hw, hwrap, hip]
              simp only [admittedTimes, if_true]
              refine runInv_write _ _ _ _ _ _ _ _ _ hq2 (le_refl _) h75 ?_
                (recordInv_coalesce _ _ _ _ _ _ _ hrec (by omega) (by omega) hlog)
              rw [activeSum_append, activeSum_singleton] at hlt ⊢
              simp only at hlt ⊢
              rw [if_pos hin] at hlt ⊢
              omega
            · rw [stepWith_val_append _ _ _ _ _ hget ht hlast hlog hw, hip]
              simp only [admittedTimes, if_true]
              refine runInv_write _ _ _ _ _ _ _ _ _ hq2 (le_refl _) h75 ?_
                (recordInv_append _ (by omega) _ _ _ _ _ _ hrec (by omega) (by omega)
                  hskew hlog)
              rw [activeSum_append, activeSum_singleton]
              simp only
              split_ifs <;> omega

theorem admittedTimes_cons (c : Call) (cs : List Call) (d : Option Decision)
    (ds : List (Option Decision)) :
    admittedTimes (c :: cs) (d :: ds) = admittedTimes [c] [d] ++ admittedTimes cs ds := by
  by_cases h : d = some Decision.Allow
  · simp [admittedTimes, h]
  · simp [admittedTimes, h]

/-- Sequential calls of the client, on one clock that ticks less than 3600 s within a
call, keep the invariant. -/
theorem runWith_inv (maxCount : Int) (hN : 1 ≤ maxCount) (hmax : maxCount < 2 ^ 63)
    (σ : Int) (hσ : σ < 3600) (ip : String) :
    ∀ (cs : List Call) (s : Store) (adm : List Int) (tlast tw : Int),
      RunInv maxCount σ ip s adm tlast tw →
      (∀ c ∈ cs, c.ip = ip ∧ c.setFails = false ∧ tlast ≤ c.now ∧ c.timed σ) →
      Sequential cs →
      ∃ tl tw2, RunInv maxCount σ ip (runWith maxCount s cs).2
        (adm ++ admittedTimes cs (runWith maxCount s cs).1) tl tw2 := by
  intro cs
  induction cs with
  | nil =>
    intro s adm tlast tw hinv _ _
    exact ⟨tlast, tw, by simpa [runWith, admittedTimes] using hinv⟩
  | cons c cs ih =>
    intro s adm tlast tw hinv hall hmono
    obtain ⟨hip, hw, hnow, htimed⟩ := hall c (List.mem_cons_self _ _)
    have hstep := stepWith_inv maxCount hN hmax σ hσ ip s adm tlast tw c hinv hip hw hnow
      htimed
    have hmono2 := List.pairwise_cons.mp hmono
    obtain ⟨tl, tw2, hfin⟩ := ih (stepWith maxCount s c).2
      (adm ++ admittedTimes [c] [(stepWith maxCount s c).1]) c.now75 c.now57 hstep
      (fun d hd => ⟨(hall d (List.mem_cons_of_mem _ hd)).1,
        (hall d (List.mem_cons_of_mem _ hd)).2.1, hmono2.1 d hd,
        (hall d (List.mem_cons_of_mem _ hd)).2.2.2⟩)
      hmono2.2
    refine ⟨tl, tw2, ?_⟩
    have hrun : runWith maxCount s (c :: cs)
        = ((stepWith maxCount s c).1 :: (runWith maxCount (stepWith maxCount s c).2 cs).1,
            (runWith maxCount (stepWith maxCount s c).2 cs).2) := rfl
    rw [hrun]
    simp only
    rw [admittedTimes_cons, ← List.append_assoc]
    exact hfin

/-- The invariant after a run that starts with nothing stored for the client. -/
theorem runWith_inv_fresh (maxCount : Int) (hN : 1 ≤ maxCount) (hmax : maxCount < 2 ^ 63)
    (σ : Int) (hσ : σ < 3600) (ip : String) (s : Store) (cs : List Call) (hs : s ip = none)
    (hcs : ∀ c ∈ cs, c.ip = ip ∧ c.setFails = false ∧ c.timed σ)
    (hmono : Sequential cs) :
    ∃ tl tw, RunInv maxCount σ ip (runWith maxCount s cs).2
      (admittedTimes cs (runWith maxCount s cs).1) tl tw := by
  have hstart : ∀ t0 t1, RunInv maxCount σ ip s [] t0 t1 := by
    intro t0 t1
    refine ⟨?_, fun _ => rfl, ?_⟩
    · intro t
      simp only [List.countP_nil, Nat.cast_zero]
      omega
    · intro slot hslot
      rw [hs] at hslot
      exact absurd hslot (by simp)
  cases cs with
  | nil => exact ⟨0, 0, by simpa [runWith, admittedTimes] using hstart 0 0⟩
  | cons c cs =>
    have := runWith_inv maxCount hN hmax σ hσ ip (c :: cs) s [] c.now c.now (hstart _ _)
      (by
        intro d hd
        refine ⟨(hcs d hd).1, (hcs d hd).2.1, ?_, (hcs d hd).2.2⟩
        rcases List.mem_cons.mp hd with h | h
        · rw [h]
        · have h1 := (List.pairwise_cons.mp hmono).1 d h
          have h2 := (hcs c (List.mem_cons_self _ _)).2.2
          omega)
      hmono
    simpa using this

/-! ## Failure of the `Get` and of the `Set`, undecodable records, the empty key -/

/-- C13: when the `Get` fails with an error other than `redis.Nil`, the handler answers
StoreUnavailable (status 500), which is neither Allow nor Deny, sends no `Set`, and the
store is left as it was; this holds for every key and every clock reading. -/
theorem get_failure_is_unavailable (s : Store) (c : Call) (h : c.getFails = true) :
    redisGet s c = GetReply.Err
      ∧ RateLimiterUsingRedis c.now c.now57 c.now75 c.ip GetReply.Err
        = (some Decision.StoreUnavailable, none)
      ∧ (step s c).1 = some Decision.StoreUnavailable
      ∧ (step s c).1 ≠ some Decision.Allow ∧ (step s c).1 ≠ some Decision.Deny
      ∧ storeOps maxWindowRequestCount c.now c.now57 c.now75 c.ip (redisGet s c)
        = [RedisOp.Get c.ip]
      ∧ (step s c).2 = s := by
  have hget : redisGet s c = GetReply.Err := by simp [redisGet, h]
  have hstep : step s c = (some Decision.StoreUnavailable, s) :=
    stepWith_err maxWindowRequestCount s c hget
  refine ⟨hget, rfl, ?_, ?_, ?_, ?_, ?_⟩
  · rw [hstep]
  · rw [hstep]; simp
  · rw [hstep]; simp
  · rw [hget]; rfl
  · rw [hstep]

/-- Witness for C13: a request of client A while the `Get` fails, on a store that holds a
record for A. -/
theorem get_failure_is_unavailable_witness :
    (step (fun k => if k = "A" then some ⟨[⟨0, 1⟩], 86400⟩ else none)
        ⟨5, "A", true, false, false, 5, 6⟩).1 = some Decision.StoreUnavailable
      ∧ (step (fun k => if k = "A" then some ⟨[⟨0, 1⟩], 86400⟩ else none)
        ⟨5, "A", true, false, false, 5, 6⟩).2
        = (fun k => if k = "A" then some ⟨[⟨0, 1⟩], 86400⟩ else none) :=
  ⟨(get_failure_is_unavailable
      (fun k => if k = "A" then some ⟨[⟨0, 1⟩], 86400⟩ else none)
      ⟨5, "A", true, false, false, 5, 6⟩ rfl).2.2.1,
    (get_failure_is_unavailable
      (fun k => if k = "A" then some ⟨[⟨0, 1⟩], 86400⟩ else none)
      ⟨5, "A", true, false, false, 5, 6⟩ rfl).2.2.2.2.2.2⟩

/-- C14: in a call whose `Set` fails the handler does not answer StoreUnavailable: the
result of `redisClient.Set` is discarded (lines 48 and 85), the answer is Allow, and the
store holds nothing of the request. -/
theorem set_failure_still_allowed (s : Store) (c : Call) (cmd : SetCmd)
    (hcmd : (RateLimiterUsingRedis c.now c.now57 c.now75 c.ip (redisGet s c)).2 = some cmd)
    (h : c.setFails = true) :
    (step s c).1 = some Decision.Allow
      ∧ (step s c).1 ≠ some Decision.StoreUnavailable
      ∧ (step s c).2 = s := by
  have hdec : (step s c).1 = some Decision.Allow :=
    limiter_write_allow maxWindowRequestCount c.now c.now57 c.now75 c.ip (redisGet s c) cmd
      hcmd
  refine ⟨hdec, by rw [hdec]; simp, ?_⟩
  unfold RateLimiterUsingRedis at hcmd
  simp only [step, stepWith, hcmd, applyWrite, h, if_true]

/-- Witness for C14: the first request of client A, the `Get` answering `redis.Nil` and the
`Set` failing. -/
theorem set_failure_still_allowed_witness :
    (step emptyStore ⟨0, "A", false, true, false, 0, 0⟩).1 = some Decision.Allow
      ∧ (step emptyStore ⟨0, "A", false, true, false, 0, 0⟩).2 "A" = none :=
  ⟨(set_failure_still_allowed emptyStore ⟨0, "A", false, true, false, 0, 0⟩
      ⟨"A", [⟨0, 1⟩], 86400⟩ (by decide) rfl).1,
    by
      rw [(set_failure_still_allowed emptyStore ⟨0, "A", false, true, false, 0, 0⟩
        ⟨"A", [⟨0, 1⟩], 86400⟩ (by decide) rfl).2.2]
      rfl⟩

/-- C15: a stored array whose entry has a string where `requestCount` is expected fails
to decode (`json.Unmarshal` returns an error) and leaves `data = [{100, 0}]`; the
handler goes on with it, answers Allow and writes `[{100, 1}]` back, at second 100 and
also at second 105, where a reset would write `[{105, 1}]`.  A stored text that is
neither `null` nor an array fails to decode and leaves `data` nil, and the handler ends
in the panic of line 74. -/
theorem decode_failure_ignored :
    unmarshal (StoredText.array [(JsonField.num 100, JsonField.other)]) = ([⟨100, 0⟩], true)
      ∧ handleStoredText 100 100 100 "A"
          (StoredText.array [(JsonField.num 100, JsonField.other)])
        = (some Decision.Allow, some ⟨"A", [⟨100, 1⟩], 86400⟩)
      ∧ unmarshal StoredText.noArray = ([], true)
      ∧ handleStoredText 100 100 100 "A" StoredText.noArray = (none, none)
      ∧ handleStoredText 105 105 105 "A"
          (StoredText.array [(JsonField.num 100, JsonField.other)])
        = (some Decision.Allow, some ⟨"A", [⟨100, 1⟩], 86400⟩)
      ∧ (⟨"A", [⟨100, 1⟩], 86400⟩ : SetCmd) ≠ ⟨"A", [⟨105, 1⟩], 86400⟩ := by
  decide

/-- C18, counterexample: for the empty client key the handler sends `Get ""`, and on
`redis.Nil` answers Allow and sends `Set ""` with the record `[{0, 1}]`. -/
theorem empty_key_reaches_store :
    storeOps maxWindowRequestCount 0 0 0 "" GetReply.Nil
        = [RedisOp.Get "", RedisOp.Set ⟨"", [⟨0, 1⟩], 86400⟩]
      ∧ (step emptyStore (Call.ok 0 "")).1 = some Decision.Allow
      ∧ (step emptyStore (Call.ok 0 "")).2 "" = some ⟨[⟨0, 1⟩], 86400⟩ := by
  decide

theorem logRequest_key (now now75 : Int) (ip ip2 : String) (data act : List requestLog) :
    logRequest now now75 ip data act
      = ((logRequest now now75 ip2 data act).1,
          (logRequest now now75 ip2 data act).2.map (fun cmd => ⟨ip, cmd.value, cmd.ttl⟩)) := by
  unfold logRequest
  cases act.getLast? with
  | none => rfl
  | some last =>
    cases data with
    | nil => simp only; split <;> rfl
    | cons d ds => simp only; split <;> rfl

/-- The client key enters the handler only as the key of the `Get` and of the `Set`. -/
theorem limiter_key (maxCount now now57 now75 : Int) (ip ip2 : String) (reply : GetReply) :
    limiter maxCount now now57 now75 ip reply
      = ((limiter maxCount now now57 now75 ip2 reply).1,
          (limiter maxCount now now57 now75 ip2 reply).2.map
            (fun cmd => ⟨ip, cmd.value, cmd.ttl⟩)) := by
  cases reply with
  | Nil => rfl
  | Err => rfl
  | Val data =>
    rw [limiter_val, limiter_val]
    by_cases ht : windowTotal now57 data ≥ maxCount
    · simp [ht]
    · rw [if_neg ht, if_neg ht]
      exact logRequest_key _ _ _ _ _ _

/-- C18, amended: the handler does not check the client key.  For the empty key it
sends `Get ""` first, as for any key, and then answers and writes as it does for any
other key on the same reply, the write going to the key `""`. -/
theorem empty_key_not_checked (now now57 now75 : Int) (ip : String) (reply : GetReply) :
    (∃ rest, storeOps maxWindowRequestCount now now57 now75 "" reply
        = RedisOp.Get "" :: rest)
      ∧ (RateLimiterUsingRedis now now57 now75 "" reply).1
        = (RateLimiterUsingRedis now now57 now75 ip reply).1
      ∧ (RateLimiterUsingRedis now now57 now75 "" reply).2
        = (RateLimiterUsingRedis now now57 now75 ip reply).2.map
            (fun cmd => ⟨"", cmd.value, cmd.ttl⟩) := by
  refine ⟨⟨_, rfl⟩, ?_, ?_⟩
  · unfold RateLimiterUsingRedis
    rw [limiter_key maxWindowRequestCount now now57 now75 "" ip reply]
  · unfold RateLimiterUsingRedis
    rw [limiter_key maxWindowRequestCount now now57 now75 "" ip reply]

/-! ## Client isolation -/

/-- The store after a call is the store before it, or that store with the write of the
handler applied, a write for the key of the call. -/
theorem stepWith_store (maxCount : Int) (s : Store) (c : Call) :
    (stepWith maxCount s c).2 = s
      ∨ ∃ cmd, (limiter maxCount c.now c.now57 c.now75 c.ip (redisGet s c)).2 = some cmd
          ∧ cmd.key = c.ip ∧ c.setFails = false
          ∧ (stepWith maxCount s c).2 = redisSet s (setSecond c (redisGet s c)) cmd := by
  cases hw : (limiter maxCount c.now c.now57 c.now75 c.ip (redisGet s c)).2 with
  | none => left; simp [stepWith, hw, applyWrite]
  | some cmd =>
    by_cases hf : c.setFails = true
    · left; simp [stepWith, hw, applyWrite, hf]
    · right
      have hf2 : c.setFails = false := by simpa using hf
      exact ⟨cmd, rfl, (limiter_write_value _ _ _ _ _ _ _ hw).1, hf2,
        by simp [stepWith, hw, applyWrite, hf2]⟩

theorem stepWith_other_key (maxCount : Int) (s : Store) (c : Call) (A : String)
    (h : c.ip ≠ A) : (stepWith maxCount s c).2 A = s A := by
  rcases stepWith_store maxCount s c with hs | ⟨cmd, _, hkey, _, hs⟩
  · rw [hs]
  · rw [hs]
    have : ¬ A = cmd.key := by rw [hkey]; exact fun e => h e.symm
    simp [redisSet, this]

theorem redisGet_congr (s s2 : Store) (c : Call) (h : s c.ip = s2 c.ip) :
    redisGet s c = redisGet s2 c := by
  simp only [redisGet, h]

theorem stepWith_congr (maxCount : Int) (s s2 : Store) (c : Call) (h : s c.ip = s2 c.ip) :
    (stepWith maxCount s c).1 = (stepWith maxCount s2 c).1
      ∧ (stepWith maxCount s c).2 c.ip = (stepWith maxCount s2 c).2 c.ip := by
  have hg := redisGet_congr s s2 c h
  refine ⟨by simp only [stepWith, hg], ?_⟩
  simp only [stepWith, hg]
  cases hw : (limiter maxCount c.now c.now57 c.now75 c.ip (redisGet s2 c)).2 with
  | none => simpa [applyWrite] using h
  | some cmd =>
    have hkey := (limiter_write_value _ _ _ _ _ _ _ hw).1
    by_cases hf : c.setFails = true
    · simpa [applyWrite, hf] using h
    · simp [applyWrite, hf, redisSet, hkey]

/-- The decisions for client `A` in a run with other clients interleaved are those of
the run of the calls of `A` alone, from any store that agrees on the key `A`. -/
theorem runWith_isolated (maxCount : Int) (A : String) :
    ∀ (cs : List Call) (s s2 : Store), s A = s2 A →
      decisionsOf A cs (runWith maxCount s cs).1
        = (runWith maxCount s2 (cs.filter (fun d => decide (d.ip = A)))).1 := by
  intro cs
  induction cs with
  | nil => intro s s2 _; rfl
  | cons c cs ih =>
    intro s s2 h
    by_cases hc : c.ip = A
    · have hcongr := stepWith_congr maxCount s s2 c (by rw [hc]; exact h)
      rw [hc] at hcongr
      have := ih (stepWith maxCount s c).2 (stepWith maxCount s2 c).2 hcongr.2
      simp only [runWith, decisionsOf, hc, if_true, List.filter_cons, decide_True,
        hcongr.1, this]
    · have hother := stepWith_other_key maxCount s c A hc
      have := ih (stepWith maxCount s c).2 s2 (by rw [hother]; exact h)
      simp only [runWith, decisionsOf, hc, if_false, List.filter_cons, decide_False, this]
      rfl

/-- C16: for a key `A`, a call of another client leaves the entry under `A` as it was;
the decision, the write and the new entry under `A` of a call of `A` are the same from
any two stores that agree on the key `A`; and the decisions for `A` in any run are those
of the run with the calls of all other clients removed. -/
theorem client_isolation (A : String) (s s2 : Store) (c : Call) (cs : List Call) :
    (c.ip ≠ A → (step s c).2 A = s A)
      ∧ (c.ip = A → s A = s2 A →
          (step s c).1 = (step s2 c).1
            ∧ RateLimiterUsingRedis c.now c.now57 c.now75 c.ip (redisGet s c)
              = RateLimiterUsingRedis c.now c.now57 c.now75 c.ip (redisGet s2 c)
            ∧ (step s c).2 A = (step s2 c).2 A)
      ∧ decisionsOf A cs (run s cs).1
        = (run s (cs.filter (fun d => decide (d.ip = A)))).1 := by
  refine ⟨stepWith_other_key _ s c A, ?_, runWith_isolated _ A cs s s rfl⟩
  intro hc h
  have hcongr := stepWith_congr maxWindowRequestCount s s2 c (by rw [hc]; exact h)
  rw [hc] at hcongr
  refine ⟨hcongr.1, ?_, hcongr.2⟩
  rw [redisGet_congr s s2 c (by rw [hc]; exact h)]

/-- Witness for C16: client B calls 111 times at second 0 between two calls of A. -/
theorem client_isolation_witness :
    (step emptyStore (Call.ok 0 "B")).2 "A" = emptyStore "A"
      ∧ (step (fun k => if k = "B" then some ⟨[⟨0, 110⟩], 86400⟩ else none)
          (Call.ok 0 "A")).1 = (step emptyStore (Call.ok 0 "A")).1
      ∧ decisionsOf "A"
          (Call.ok 0 "A" :: (List.replicate 111 (Call.ok 0 "B") ++ [Call.ok 1 "A"]))
          (run emptyStore
            (Call.ok 0 "A" :: (List.replicate 111 (Call.ok 0 "B") ++ [Call.ok 1 "A"]))).1
        = (run emptyStore
            ((Call.ok 0 "A" :: (List.replicate 111 (Call.ok 0 "B") ++ [Call.ok 1 "A"])).filter
              (fun d => decide (d.ip = "A")))).1 :=
  ⟨(client_isolation "A" emptyStore emptyStore (Call.ok 0 "B") []).1 (by decide),
    ((client_isolation "A" (fun k => if k = "B" then some ⟨[⟨0, 110⟩], 86400⟩ else none)
      emptyStore (Call.ok 0 "A") []).2.1 rfl rfl).1,
    (client_isolation "A" emptyStore emptyStore (Call.ok 0 "A")
      (Call.ok 0 "A" :: (List.replicate 111 (Call.ok 0 "B") ++ [Call.ok 1 "A"]))).2.2⟩

/-! ## Quota over the rolling window -/

set_option maxRecDepth 100000 in
/-- C4, counterexample: client A calls at seconds 0, 1 and 3600 and then 109 times at
second 86400, against the empty store.  All 112 calls are admitted, and 111 of them
have their request time in `(86400 - 86400, 86400]`: more than 110. -/
theorem rolling_window_exceeded :
    (run emptyStore
        ([Call.ok 0 "A", Call.ok 1 "A", Call.ok 3600 "A"]
          ++ List.replicate 109 (Call.ok 86400 "A"))).1
        = List.replicate 112 (some Decision.Allow)
      ∧ (admittedTimes
          ([Call.ok 0 "A", Call.ok 1 "A", Call.ok 3600 "A"]
            ++ List.replicate 109 (Call.ok 86400 "A"))
          (run emptyStore
            ([Call.ok 0 "A", Call.ok 1 "A", Call.ok 3600 "A"]
              ++ List.replicate 109 (Call.ok 86400 "A"))).1).countP
          (fun a => decide (86400 - 86400 < a ∧ a ≤ 86400)) = 111 := by
  decide

/-- C4, amended: for sequential calls of one client on one clock that does not go back
and ticks less than 3600 s between lines 39 and 75 of a call, starting with nothing
stored for the client and with every write taken by the store, and for every time `t`,
at most 110 of the admitted calls have their request time (the reading of line 39) in
`[t - 86400 + 3600, t]` (the window shortened by one log interval). -/
theorem admitted_per_window (ip : String) (s : Store) (cs : List Call) (t : Int)
    (hs : s ip = none)
    (hcs : ∀ c ∈ cs, c.ip = ip ∧ c.setFails = false
      ∧ c.now ≤ c.now57 ∧ c.now57 ≤ c.now75 ∧ c.now75 < c.now + 3600)
    (hmono : cs.Pairwise (fun a b => a.now75 ≤ b.now)) :
    (admittedTimes cs (run s cs).1).countP
      (fun a => decide (t - 86400 + 3600 ≤ a ∧ a ≤ t)) ≤ 110 := by
  obtain ⟨tl, tw, hq, _⟩ := runWith_inv_fresh maxWindowRequestCount (by decide) (by decide)
    3599 (by decide) ip s cs hs
    (fun c hc => ⟨(hcs c hc).1, (hcs c hc).2.1, (hcs c hc).2.2.1, (hcs c hc).2.2.2.1,
      by have := (hcs c hc).2.2.2.2; omega⟩)
    hmono
  have := hq t
  simp only [maxWindowRequestCount] at this
  unfold run
  exact_mod_cast this

/-- Witness for C4 (amended): client A calls at second 0, then with the stamp 3599 while
the clock reads 3600 on lines 57 and 75, then at second 86399; `t = 86399`. -/
theorem admitted_per_window_witness :
    (admittedTimes
        [Call.ok 0 "A", Call.reads 3599 3600 3600 "A", Call.ok 86399 "A"]
        (run emptyStore
          [Call.ok 0 "A", Call.reads 3599 3600 3600 "A", Call.ok 86399 "A"]).1).countP
      (fun a => decide (86399 - 86400 + 3600 ≤ a ∧ a ≤ 86399)) ≤ 110 :=
  admitted_per_window "A" emptyStore
    [Call.ok 0 "A", Call.reads 3599 3600 3600 "A", Call.ok 86399 "A"] 86399 rfl
    (by decide) (by decide)

/-! ## Running total of the stored record -/

theorem clientInv_later (maxCount σ : Int) (ip : String) (s : Store)
    (tlast tw t2 tw2 : Int) (hinv : ClientInv maxCount σ ip s tlast tw)
    (hw1 : tlast ≤ tw2) (hw2 : tw2 ≤ t2) :
    ClientInv maxCount σ ip s t2 tw2 := by
  intro slot hs
  obtain ⟨h1, h2, h3, h4⟩ := hinv slot hs
  have hanti := activeSum_anti (tw - 86400) (tw2 - 86400) (by omega) slot.value h4.count_pos
  exact ⟨by omega, hw2, by omega, h4⟩

/-- One call of the client keeps the invariant of the stored record, whatever the store
does with the `Get` and the `Set`. -/
theorem stepWith_clientInv (maxCount : Int) (hN : 1 ≤ maxCount) (hmax : maxCount < 2 ^ 63)
    (σ : Int) (hσ : σ < 3600) (ip : String) (s : Store) (tlast tw : Int) (c : Call)
    (hinv : ClientInv maxCount σ ip s tlast tw) (hip : c.ip = ip) (hnow : tlast ≤ c.now)
    (htimed : c.timed σ) :
    ClientInv maxCount σ ip (stepWith maxCount s c).2 c.now75 c.now57 := by
  rcases stepWith_store maxCount s c with hs | ⟨cmd, _, _, hw, _⟩
  · rw [hs]
    have h1 := htimed.1
    have h2 := htimed.2.1
    exact clientInv_later _ _ _ _ _ _ _ _ hinv (by omega) h2
  · have hrun : RunInv maxCount σ ip s [] tlast tw := by
      refine ⟨?_, fun _ => rfl, hinv⟩
      intro t
      simp only [List.countP_nil, Nat.cast_zero]
      omega
    obtain ⟨_, _, hsome⟩ :=
      stepWith_inv maxCount hN hmax σ hσ ip s [] tlast tw c hrun hip hw hnow htimed
    intro slot hslot
    obtain ⟨h1, h2, h3, h4⟩ := hsome slot hslot
    exact ⟨h1, h2, h3, recordInv_forget _ _ _ h4⟩

theorem runWith_clientInv (maxCount : Int) (hN : 1 ≤ maxCount) (hmax : maxCount < 2 ^ 63)
    (σ : Int) (hσ : σ < 3600) (ip : String) (T : Int) :
    ∀ (cs : List Call) (s : Store) (tlast tw : Int),
      ClientInv maxCount σ ip s tlast tw → tlast ≤ T →
      (∀ c ∈ cs, c.ip = ip ∧ tlast ≤ c.now ∧ c.now75 ≤ T ∧ c.timed σ) →
      Sequential cs →
      ClientInv maxCount σ ip (runWith maxCount s cs).2 T T := by
  intro cs
  induction cs with
  | nil =>
    intro s tlast tw hinv hT _ _
    exact clientInv_later _ _ _ _ _ _ _ _ hinv hT (le_refl _)
  | cons c cs ih =>
    intro s tlast tw hinv hT hall hmono
    obtain ⟨hip, hlo, hhi, htimed⟩ := hall c (List.mem_cons_self _ _)
    have hmono2 := List.pairwise_cons.mp hmono
    exact ih (stepWith maxCount s c).2 c.now75 c.now57
      (stepWith_clientInv maxCount hN hmax σ hσ ip s tlast tw c hinv hip hlo htimed) hhi
      (fun d hd => ⟨(hall d (List.mem_cons_of_mem _ hd)).1, hmono2.1 d hd,
        (hall d (List.mem_cons_of_mem _ hd)).2.2.1,
        (hall d (List.mem_cons_of_mem _ hd)).2.2.2⟩)
      hmono2.2

/-- After the calls `pre` of a client with nothing stored at the start, when one more
call `c` follows: the invariant of the stored record, at the start of `c`. -/
theorem runWith_clientInv_pre (maxCount : Int) (hN : 1 ≤ maxCount)
    (hmax : maxCount < 2 ^ 63) (σ : Int) (hσ : σ < 3600) (ip : String) (s : Store)
    (pre : List Call) (c : Call) (hs : s ip = none)
    (hcs : ∀ d ∈ pre ++ [c], d.ip = ip ∧ d.timed σ)
    (hmono : Sequential (pre ++ [c])) :
    ClientInv maxCount σ ip (runWith maxCount s pre).2 c.now c.now := by
  have hmono1 := List.pairwise_append.mp hmono
  have hstart : ∀ t0 t1, ClientInv maxCount σ ip s t0 t1 := by
    intro t0 t1 slot hslot
    rw [hs] at hslot
    exact absurd hslot (by simp)
  cases hp : pre with
  | nil => exact hstart _ _
  | cons d ds =>
    rw [hp] at hmono1 hcs
    have hd := hcs d (List.mem_append_left _ (List.mem_cons_self _ _))
    have hdc := hmono1.2.2 d (List.mem_cons_self _ _) c (List.mem_singleton_self _)
    have hm := List.pairwise_cons.mp hmono1.1
    refine runWith_clientInv maxCount hN hmax σ hσ ip c.now (d :: ds) s d.now d.now
      (hstart _ _) (by have := hd.2; omega) ?_ hmono1.1
    intro x hx
    have hxx := hcs x (List.mem_append_left _ hx)
    refine ⟨hxx.1, ?_, hmono1.2.2 x hx c (List.mem_singleton_self _), hxx.2⟩
    rcases List.mem_cons.mp hx with h | h
    · rw [h]
    · have h1 := hm.1 x h
      have h2 := hd.2
      omega

/-- After the calls `pre` and one more call `c` of a client with nothing stored at the
start, the stored counts inside the window of line 57 of `c` sum to at most the limit. -/
theorem runWith_clientInv_last (maxCount : Int) (hN : 1 ≤ maxCount)
    (hmax : maxCount < 2 ^ 63) (σ : Int) (hσ : σ < 3600) (ip : String) (s : Store)
    (pre : List Call) (c : Call) (hs : s ip = none)
    (hcs : ∀ d ∈ pre ++ [c], d.ip = ip ∧ d.timed σ)
    (hmono : Sequential (pre ++ [c])) :
    ClientInv maxCount σ ip (runWith maxCount s (pre ++ [c])).2 c.now75 c.now57 := by
  have hc := hcs c (List.mem_append_right _ (List.mem_singleton_self _))
  have hpre := runWith_clientInv_pre maxCount hN hmax σ hσ ip s pre c hs hcs hmono
  rw [runWith_append]
  exact stepWith_clientInv maxCount hN hmax σ hσ ip _ c.now c.now c hpre hc.1 (le_refl _) hc.2

set_option maxRecDepth 100000 in
/-- C19, counterexample: client A calls 109 times at second 0, once at second 3600, and
once with the stamp 86399 while the clock reads 86400 on lines 57 and 75.  The entry
`{0, 109}` is outside the window of line 57, the call is admitted, and the stored counts
with `requestTimeStamp > 86399 - 86400` then sum to 111. -/
theorem stored_total_exceeds_limit :
    (run emptyStore
        (List.replicate 109 (Call.ok 0 "A")
          ++ [Call.ok 3600 "A", Call.reads 86399 86400 86400 "A"])).2 "A"
        = some ⟨[⟨0, 109⟩, ⟨3600, 1⟩, ⟨86399, 1⟩], 86400 + 86400⟩
      ∧ activeSum (86399 - 86400) [⟨0, 109⟩, ⟨3600, 1⟩, ⟨86399, 1⟩] = 111 := by
  decide

/-- C19, amended: for sequential calls of one client on one clock that does not go back
and ticks less than 3600 s between lines 39 and 75 of a call, starting with nothing
stored for the client, after each call the exact sum of `requestCount` over the stored
entries with `requestTimeStamp > now57 - 86400`, `now57` being the clock reading of line
57 of that call, is at most 110, and every stored entry has `requestCount >= 1`; the
`Get` and the `Set` may fail in any of the calls. -/
theorem running_total_bounded (ip : String) (s : Store) (pre post : List Call) (c : Call)
    (slot : Slot) (hs : s ip = none)
    (hcs : ∀ d ∈ pre ++ c :: post, d.ip = ip
      ∧ d.now ≤ d.now57 ∧ d.now57 ≤ d.now75 ∧ d.now75 < d.now + 3600)
    (hmono : (pre ++ c :: post).Pairwise (fun a b => a.now75 ≤ b.now))
    (hslot : (run s (pre ++ [c])).2 ip = some slot) :
    activeSum (c.now57 - 86400) slot.value ≤ 110
      ∧ ∀ e ∈ slot.value, 1 ≤ e.RequestCount := by
  have hmono1 := List.pairwise_append.mp hmono
  have hmonoPre : Sequential (pre ++ [c]) := by
    refine List.pairwise_append.mpr ⟨hmono1.1, List.pairwise_singleton _ _, ?_⟩
    intro a ha b hb
    rw [List.mem_singleton.mp hb]
    exact hmono1.2.2 a ha c (List.mem_cons_self _ _)
  have hPre : ∀ d ∈ pre ++ [c], d.ip = ip ∧ d.timed 3599 := by
    intro d hd
    have hmem : d ∈ pre ++ c :: post := by
      rcases List.mem_append.mp hd with h | h
      · exact List.mem_append_left _ h
      · rw [List.mem_singleton.mp h]
        exact List.mem_append_right _ (List.mem_cons_self _ _)
    obtain ⟨h1, h2, h3, h4⟩ := hcs d hmem
    exact ⟨h1, h2, h3, by omega⟩
  have hinv := runWith_clientInv_last maxWindowRequestCount (by decide) (by decide) 3599
    (by decide) ip s pre c hs hPre hmonoPre
  obtain ⟨_, _, htot, hrec⟩ := hinv slot hslot
  simp only [maxWindowRequestCount] at htot
  exact ⟨htot, hrec.count_pos⟩

/-- Witness for C19 (amended): the calls of the counterexample with three calls at second
0 in place of 109: the counts inside the window of line 57 of the last call sum to 2. -/
theorem running_total_bounded_witness :
    (run emptyStore
        ([Call.ok 0 "A", Call.ok 0 "A", Call.ok 0 "A", Call.ok 3600 "A"]
          ++ [Call.reads 86399 86400 86400 "A"])).2 "A"
        = some ⟨[⟨0, 3⟩, ⟨3600, 1⟩, ⟨86399, 1⟩], 86400 + 86400⟩
      ∧ activeSum (86400 - 86400) [⟨0, 3⟩, ⟨3600, 1⟩, ⟨86399, 1⟩] ≤ 110
      ∧ ∀ e ∈ ([⟨0, 3⟩, ⟨3600, 1⟩, ⟨86399, 1⟩] : List requestLog), 1 ≤ e.RequestCount :=
  ⟨by decide,
    running_total_bounded "A" emptyStore
      [Call.ok 0 "A", Call.ok 0 "A", Call.ok 0 "A", Call.ok 3600 "A"] []
      (Call.reads 86399 86400 86400 "A")
      ⟨[⟨0, 3⟩, ⟨3600, 1⟩, ⟨86399, 1⟩], 86400 + 86400⟩ rfl (by decide) (by decide)
      (by decide)⟩

/-! ## Order and spacing of the stored entries, for arbitrary calls -/

theorem redisGet_val (s : Store) (c : Call) (data : List requestLog)
    (h : redisGet s c = GetReply.Val data) :
    ∃ slot, s c.ip = some slot ∧ slot.value = data := by
  unfold redisGet at h
  by_cases hg : c.getFails = true
  · simp [hg] at h
  · simp only [hg, Bool.false_eq_true, if_false] at h
    cases hs : s c.ip with
    | none => simp [hs] at h
    | some slot =>
      simp only [hs] at h
      split at h
      · exact absurd h (by simp)
      · exact ⟨slot, rfl, by simpa using h⟩

/-- Written from a record in spaced ascending order by a call in which at most `σ`
seconds pass between lines 39 and 75, the record is again in spaced ascending order. -/
theorem write_spaced (maxCount now now57 now75 σ : Int) (hσ : σ ≤ 3600)
    (hskew : now75 ≤ now + σ) (ip : String) (data : List requestLog) (cmd : SetCmd)
    (h : (limiter maxCount now now57 now75 ip (GetReply.Val data)).2 = some cmd)
    (hsp : data.Pairwise (fun a b => a.RequestTimeStamp + 3600 ≤ b.RequestTimeStamp + σ)) :
    cmd.value.Pairwise (fun a b => a.RequestTimeStamp + 3600 ≤ b.RequestTimeStamp + σ) := by
  obtain ⟨_, _, hcase⟩ := limiter_write_value _ _ _ _ _ _ _ h
  rcases hcase with ⟨hnil, _⟩ | ⟨data2, last, hval, _, hl, hcase⟩
  · exact absurd hnil (by simp)
  · have hd : data2 = data := by injection hval with h1; exact h1.symm
    subst hd
    have hact : activeEntries now57 data2 ≠ [] := by
      intro hnil; simp [hnil] at hl
    obtain ⟨init, last2, hdata, hlast2, _⟩ :=
      last_active_is_last now57 data2 (spaced_ascending σ hσ _ hsp) hact
    have hlast : last2 = last := by
      rw [hl] at hlast2; injection hlast2 with h1; exact h1.symm
    subst hlast
    subst hdata
    have hsp2 := List.pairwise_append.mp hsp
    rcases hcase with ⟨_, hv⟩ | ⟨hlog, hv⟩
    · rw [hv, List.dropLast_concat]
      refine List.pairwise_append.mpr ⟨hsp2.1, List.pairwise_singleton _ _, ?_⟩
      intro a ha b hb
      rw [List.mem_singleton.mp hb]
      exact hsp2.2.2 a ha last2 (List.mem_singleton_self _)
    · rw [hv]
      refine List.pairwise_append.mpr ⟨hsp, List.pairwise_singleton _ _, ?_⟩
      intro a ha b hb
      rw [List.mem_singleton.mp hb]
      simp only
      rcases List.mem_append.mp ha with h1 | h1
      · have := hsp2.2.2 a h1 last2 (List.mem_singleton_self _)
        omega
      · rw [List.mem_singleton.mp h1]
        omega

theorem stepWith_spaced (maxCount σ : Int) (hσ : σ ≤ 3600) (s : Store) (c : Call)
    (hskew : c.now75 ≤ c.now + σ) (hinv : StoreSpaced σ s) :
    StoreSpaced σ (stepWith maxCount s c).2 := by
  rcases stepWith_store maxCount s c with hs | ⟨cmd, hw, hkey, _, hs⟩
  · rw [hs]; exact hinv
  · rw [hs]
    intro k slot hk
    by_cases hkk : k = cmd.key
    · simp only [redisSet, hkk, if_true, Option.some.injEq] at hk
      rw [← hk]
      simp only
      obtain ⟨_, _, hcase⟩ := limiter_write_value _ _ _ _ _ _ _ hw
      rcases hcase with ⟨_, hv⟩ | ⟨data, last, hval, _, _, _⟩
      · rw [hv]; exact List.pairwise_singleton _ _
      · obtain ⟨slot2, hs2, hv2⟩ := redisGet_val s c data hval
        rw [hval] at hw
        exact write_spaced _ _ _ _ σ hσ hskew _ _ _ hw (by rw [← hv2]; exact hinv _ _ hs2)
    · simp only [redisSet, hkk, if_false] at hk
      exact hinv k slot hk

theorem runWith_spaced (maxCount σ : Int) (hσ : σ ≤ 3600) :
    ∀ (cs : List Call) (s : Store), StoreSpaced σ s →
      (∀ c ∈ cs, c.now75 ≤ c.now + σ) → StoreSpaced σ (runWith maxCount s cs).2 := by
  intro cs
  induction cs with
  | nil => intro s h _; exact h
  | cons c cs ih =>
    intro s h hall
    exact ih _ (stepWith_spaced maxCount σ hσ s c (hall c (List.mem_cons_self _ _)) h)
      (fun d hd => hall d (List.mem_cons_of_mem _ hd))

theorem emptyStore_spaced (σ : Int) : StoreSpaced σ emptyStore := by
  intro k slot h
  simp [emptyStore] at h

theorem stepWith_before (maxCount : Int) (s : Store) (c : Call) (T : Int)
    (hinv : StoreBefore s T) (hc : c.now ≤ T) : StoreBefore (stepWith maxCount s c).2 T := by
  rcases stepWith_store maxCount s c with hs | ⟨cmd, hw, hkey, _, hs⟩
  · rw [hs]; exact hinv
  · rw [hs]
    intro k slot hk e he
    by_cases hkk : k = cmd.key
    · simp only [redisSet, hkk, if_true, Option.some.injEq] at hk
      rw [← hk] at he
      simp only at he
      obtain ⟨_, _, hcase⟩ := limiter_write_value _ _ _ _ _ _ _ hw
      rcases hcase with ⟨_, hv⟩ | ⟨data, last, hval, _, hl, hcase⟩
      · rw [hv, List.mem_singleton] at he
        rw [he]; exact hc
      · obtain ⟨slot2, hs2, hv2⟩ := redisGet_val s c data hval
        have hdata : ∀ x ∈ data, x.RequestTimeStamp ≤ T := by
          intro x hx
          exact hinv _ slot2 hs2 x (by rw [hv2]; exact hx)
        rcases hcase with ⟨_, hv⟩ | ⟨_, hv⟩
        · rw [hv] at he
          rcases List.mem_append.mp he with h1 | h1
          · exact hdata e (List.dropLast_subset _ h1)
          · rw [List.mem_singleton.mp h1]
            have hlast : last ∈ activeEntries c.now57 data := List.mem_of_getLast?_eq_some hl
            exact hdata last (List.mem_filter.mp hlast).1
        · rw [hv] at he
          rcases List.mem_append.mp he with h1 | h1
          · exact hdata e h1
          · rw [List.mem_singleton.mp h1]; exact hc
    · simp only [redisSet, hkk, if_false] at hk
      exact hinv k slot hk e he

theorem runWith_before (maxCount : Int) (T : Int) :
    ∀ (cs : List Call) (s : Store), StoreBefore s T → (∀ c ∈ cs, c.now ≤ T) →
      StoreBefore (runWith maxCount s cs).2 T := by
  intro cs
  induction cs with
  | nil => intro s h _; exact h
  | cons c cs ih =>
    intro s h hall
    exact ih _ (stepWith_before maxCount s c T h (hall c (List.mem_cons_self _ _)))
      (fun d hd => hall d (List.mem_cons_of_mem _ hd))

theorem emptyStore_before (T : Int) : StoreBefore emptyStore T := by
  intro k slot h
  simp [emptyStore] at h

/-- On a found record of a store with spaced records, the last entry inside the window
is the last element of the record. -/
theorem found_last_active_is_last (σ : Int) (hσ : σ ≤ 3600) (s : Store) (c : Call)
    (data : List requestLog) (last : requestLog) (hinv : StoreSpaced σ s)
    (hget : redisGet s c = GetReply.Val data)
    (hl : (activeEntries c.now57 data).getLast? = some last) :
    ∃ init, data = init ++ [last] := by
  obtain ⟨slot, hs, hv⟩ := redisGet_val s c data hget
  have hsp := hinv _ slot hs
  rw [hv] at hsp
  have hact : activeEntries c.now57 data ≠ [] := by
    intro hnil; simp [hnil] at hl
  obtain ⟨init, last2, hdata, hlast2, _⟩ :=
    last_active_is_last c.now57 data (spaced_ascending σ hσ _ hsp) hact
  rw [hl] at hlast2
  injection hlast2 with h1
  exact ⟨init, by rw [hdata, h1]⟩

/-- Entries at least `g` s apart with timestamps in `(lo, hi]`: their number times `g`
is at most `hi - lo + g - 1`. -/
theorem spaced_length (g hi : Int) :
    ∀ (l : List requestLog) (lo : Int),
      l.Pairwise (fun a b => a.RequestTimeStamp + g ≤ b.RequestTimeStamp) →
      (∀ e ∈ l, lo < e.RequestTimeStamp ∧ e.RequestTimeStamp ≤ hi) → l ≠ [] →
      (l.length : Int) * g ≤ hi - lo + g - 1 := by
  intro l
  induction l with
  | nil => intro lo _ _ h; exact absurd rfl h
  | cons e es ih =>
    intro lo hsp hall _
    have he := hall e (List.mem_cons_self _ _)
    have hsp2 := List.pairwise_cons.mp hsp
    cases hes : es with
    | nil =>
      simp only [List.length_singleton, Nat.cast_one, one_mul]
      omega
    | cons d ds =>
      have hne : es ≠ [] := by rw [hes]; simp
      have := ih (lo + g) hsp2.2
        (fun x hx => ⟨by have := hsp2.1 x hx; omega,
          (hall x (List.mem_cons_of_mem _ hx)).2⟩) hne
      rw [hes] at this
      simp only [List.length_cons, Nat.cast_add, Nat.cast_one] at this ⊢
      have hexp : ((ds.length : Int) + 1 + 1) * g = ((ds.length : Int) + 1) * g + g := by ring
      rw [hexp]
      omega

/-- The entries of a spaced record with a timestamp in `(T - 86400, T]`: their number
times `3600 - σ` is at most `89999 - σ`; there are at most 24 of them when `σ = 0`. -/
theorem active_length_bound (σ T : Int) (hσ : σ < 3600) (value : List requestLog)
    (hsp : value.Pairwise (fun a b => a.RequestTimeStamp + 3600 ≤ b.RequestTimeStamp + σ))
    (hle : ∀ e ∈ value, e.RequestTimeStamp ≤ T) :
    ((activeEntries T value).length : Int) * (3600 - σ) ≤ 89999 - σ
      ∧ (σ = 0 → (activeEntries T value).length ≤ 24) := by
  have hmain : ((activeEntries T value).length : Int) * (3600 - σ) ≤ 89999 - σ := by
    by_cases hne : activeEntries T value = []
    · rw [hne]
      simp only [List.length_nil, Nat.cast_zero, zero_mul]
      omega
    · have hlen := spaced_length (3600 - σ) T (activeEntries T value) (T - 86400)
        (List.Pairwise.sublist (List.filter_sublist _)
          (List.Pairwise.imp (fun hab => by omega) hsp))
        (by
          intro e he
          have hf := List.mem_filter.mp he
          have h1 : e.RequestTimeStamp > T - 86400 := by simpa using hf.2
          exact ⟨h1, hle e hf.1⟩)
        hne
      omega
  refine ⟨hmain, ?_⟩
  intro h0
  rw [h0] at hmain
  omega

/-! ## Ordering invariant -/

/-- C17: every record in a store reached from the empty store by any sequence of calls
(any clients, any request times, any failures of the store), in each of which at most
3600 s pass between the clock readings of lines 39 and 75, is in ascending order of
`requestTimeStamp`; and when such a call on such a store appends the entry it stamped
to the found record, the stamp is not less than the timestamp of the last entry of
that record. -/
theorem records_stay_ordered (cs : List Call) (hskew : ∀ d ∈ cs, d.now75 ≤ d.now + 3600) :
    (∀ k slot, (run emptyStore cs).2 k = some slot →
        slot.value.Pairwise (fun a b => a.RequestTimeStamp ≤ b.RequestTimeStamp))
      ∧ ∀ (c : Call) (data : List requestLog) (l : requestLog),
          c.now75 ≤ c.now + 3600 →
          redisGet (run emptyStore cs).2 c = GetReply.Val data →
          (RateLimiterUsingRedis c.now c.now57 c.now75 c.ip (GetReply.Val data)).2
            = some ⟨c.ip, data ++ [⟨c.now, 1⟩], 86400⟩ →
          data.getLast? = some l → l.RequestTimeStamp ≤ c.now := by
  have hinv : StoreSpaced 3600 (run emptyStore cs).2 :=
    runWith_spaced maxWindowRequestCount 3600 (le_refl _) cs emptyStore
      (emptyStore_spaced _) hskew
  refine ⟨fun k slot hk => spaced_ascending 3600 (le_refl _) _ (hinv k slot hk), ?_⟩
  intro c data l hc hget hw hlast
  obtain ⟨_, _, hcase⟩ := limiter_write_value _ _ _ _ _ _ _ hw
  rcases hcase with ⟨hnil, _⟩ | ⟨data2, last, hval, _, hl, hcase⟩
  · exact absurd hnil (by simp)
  · have hd : data2 = data := by injection hval with h1; exact h1.symm
    subst hd
    obtain ⟨init, hdata⟩ :=
      found_last_active_is_last 3600 (le_refl _) _ c data2 last hinv hget hl
    subst hdata
    rw [List.getLast?_concat] at hlast
    injection hlast with h1
    subst h1
    rcases hcase with ⟨_, hv⟩ | ⟨hlog, _⟩
    · simp only at hv
      have := congrArg List.length hv
      simp at this
    · omega

/-- Witness for C17: client A calls at seconds 0, 7200 (a call whose clock readings are
7200, 7201 and 7202) and then 3700; the record after the three calls is
`[{0, 1}, {7200, 2}]`, and the call at 7200 appended to `[{0, 1}]`. -/
theorem records_stay_ordered_witness :
    (run emptyStore [Call.ok 0 "A", Call.reads 7200 7201 7202 "A", Call.ok 3700 "A"]).2 "A"
        = some ⟨[⟨0, 1⟩, ⟨7200, 2⟩], 3700 + 86400⟩
      ∧ ([⟨0, 1⟩, ⟨7200, 2⟩] : List requestLog).Pairwise
          (fun a b => a.RequestTimeStamp ≤ b.RequestTimeStamp)
      ∧ (⟨0, 1⟩ : requestLog).RequestTimeStamp ≤ (Call.reads 7200 7201 7202 "A").now :=
  ⟨by decide,
    (records_stay_ordered [Call.ok 0 "A", Call.reads 7200 7201 7202 "A", Call.ok 3700 "A"]
      (by decide)).1 "A" ⟨[⟨0, 1⟩, ⟨7200, 2⟩], 3700 + 86400⟩ (by decide),
    (records_stay_ordered [Call.ok 0 "A"] (by decide)).2 (Call.reads 7200 7201 7202 "A")
      [⟨0, 1⟩] ⟨0, 1⟩ (by decide) (by decide) (by decide) (by decide)⟩

/-! ## Bucket spacing -/

/-- C20, counterexample: client A calls at second 0; its next call reads the clock as
3599 on line 39 and as 3600 on lines 57 and 75.  The entry `{0, 1}` is not newer than
3600 - 3600, so the call appends the entry it stamped, `{3599, 1}`: the two consecutive
entries of the record are 3599 s apart. -/
theorem buckets_closer_than_interval :
    (run emptyStore [Call.ok 0 "A", Call.reads 3599 3600 3600 "A"]).2 "A"
        = some ⟨[⟨0, 1⟩, ⟨3599, 1⟩], 3600 + 86400⟩
      ∧ ¬ ([⟨0, 1⟩, ⟨3599, 1⟩] : List requestLog).Chain'
          (fun a b => a.RequestTimeStamp + 3600 ≤ b.RequestTimeStamp) :=
  ⟨by decide, by simp⟩

/-- C20, amended: let at most `σ < 3600` seconds pass between the clock readings of
lines 39 and 75 in every call.  In every record of a store reached from the empty store
by any sequence of such calls, consecutive entries have timestamps at least `3600 - σ`
seconds apart; when the request times up to and including the next call are
non-decreasing, the number `n` of entries of a stored record inside the window of that
call (timestamp greater than its line-57 reading minus 86400) satisfies
`n * (3600 - σ) ≤ 89999 - σ`, which is `n ≤ 24` when `σ = 0`; and whenever the next call
finds a record with an entry inside the window, the last entry inside the window is the
last element of the record, the one the coalescing write overwrites. -/
theorem bucket_spacing (σ : Int) (hσ : σ < 3600) (cs : List Call) (c : Call)
    (hskew : ∀ d ∈ cs, d.now75 ≤ d.now + σ) :
    (∀ k slot, (run emptyStore cs).2 k = some slot →
        slot.value.Chain'
          (fun a b => a.RequestTimeStamp + (3600 - σ) ≤ b.RequestTimeStamp))
      ∧ ((cs ++ [c]).Pairwise (fun a b => a.now ≤ b.now) → c.now ≤ c.now57 →
          ∀ k slot, (run emptyStore cs).2 k = some slot →
            ((activeEntries c.now57 slot.value).length : Int) * (3600 - σ) ≤ 89999 - σ
              ∧ (σ = 0 → (activeEntries c.now57 slot.value).length ≤ 24))
      ∧ ∀ (data : List requestLog) (last : requestLog),
          redisGet (run emptyStore cs).2 c = GetReply.Val data →
          (activeEntries c.now57 data).getLast? = some last →
          data.getLast? = some last := by
  have hinv : StoreSpaced σ (run emptyStore cs).2 :=
    runWith_spaced maxWindowRequestCount σ (by omega) cs emptyStore
      (emptyStore_spaced _) hskew
  refine ⟨fun k slot hk =>
    List.Pairwise.chain' (List.Pairwise.imp (fun hab => by omega) (hinv k slot hk)), ?_, ?_⟩
  · intro hmono hc k slot hk
    have hle : ∀ d ∈ cs, d.now ≤ c.now57 := fun d hd => by
      have := (List.pairwise_append.mp hmono).2.2 d hd c (List.mem_singleton_self _)
      omega
    have hbefore : StoreBefore (run emptyStore cs).2 c.now57 :=
      runWith_before maxWindowRequestCount c.now57 cs emptyStore (emptyStore_before _) hle
    exact active_length_bound σ c.now57 hσ slot.value (hinv k slot hk) (hbefore k slot hk)
  · intro data last hget hl
    obtain ⟨init, hdata⟩ :=
      found_last_active_is_last σ (by omega) _ c data last hinv hget hl
    rw [hdata, List.getLast?_concat]

/-- Witness for C20 (amended), with `σ = 1`: client A calls at second 0 and then with
the clock readings 3599, 3600, 3600; the next call is at 7200. -/
theorem bucket_spacing_witness :
    (run emptyStore [Call.ok 0 "A", Call.reads 3599 3600 3600 "A"]).2 "A"
        = some ⟨[⟨0, 1⟩, ⟨3599, 1⟩], 3600 + 86400⟩
      ∧ ([⟨0, 1⟩, ⟨3599, 1⟩] : List requestLog).Chain'
          (fun a b => a.RequestTimeStamp + (3600 - 1) ≤ b.RequestTimeStamp)
      ∧ (((activeEntries 7200 [⟨0, 1⟩, ⟨3599, 1⟩]).length : Int) * (3600 - 1) ≤ 89999 - 1
          ∧ ((1 : Int) = 0 → (activeEntries 7200 [⟨0, 1⟩, ⟨3599, 1⟩]).length ≤ 24))
      ∧ ([⟨0, 1⟩, ⟨3599, 1⟩] : List requestLog).getLast? = some ⟨3599, 1⟩ :=
  ⟨by decide,
    (bucket_spacing 1 (by decide) [Call.ok 0 "A", Call.reads 3599 3600 3600 "A"]
      (Call.ok 7200 "A") (by decide)).1 "A"
      ⟨[⟨0, 1⟩, ⟨3599, 1⟩], 3600 + 86400⟩ (by decide),
    (bucket_spacing 1 (by decide) [Call.ok 0 "A", Call.reads 3599 3600 3600 "A"]
      (Call.ok 7200 "A") (by decide)).2.1 (by decide) (by decide) "A"
      ⟨[⟨0, 1⟩, ⟨3599, 1⟩], 3600 + 86400⟩ (by decide),
    (bucket_spacing 1 (by decide) [Call.ok 0 "A", Call.reads 3599 3600 3600 "A"]
      (Call.ok 7200 "A") (by decide)).2.2 [⟨0, 1⟩, ⟨3599, 1⟩] ⟨3599, 1⟩
      (by decide) (by decide)⟩

/-! ## Bounded storage -/

set_option maxRecDepth 100000 in
/-- C10, counterexample: client A calls once an hour, at seconds 0, 3600, ..., 86400,
against the empty store, the clock not moving during any call.  Every call is admitted
and appends an entry; the record written by the 25th call has 25 entries. -/
theorem record_exceeds_24_entries :
    (run emptyStore ((List.range 25).map (fun k => Call.ok (3600 * (k : Int)) "A"))).1
        = List.replicate 25 (some Decision.Allow)
      ∧ ((run emptyStore
          ((List.range 25).map (fun k => Call.ok (3600 * (k : Int)) "A"))).2 "A").map
          (fun slot => (slot.value.length, slot.expiresAt)) = some (25, 86400 + 86400) := by
  decide

/-- C10, amended: for sequential calls with clock readings that never go back, in each
of which at most `σ < 3600` seconds pass between lines 39 and 75, starting from the
empty store, the number `n` of entries that the record held for a client after a call
has inside the window of that call (timestamp greater than its line-57 reading minus
86400) satisfies `n * (3600 - σ) ≤ 89999 - σ`; when the clock does not move during the
calls (`σ = 0`) this is `n ≤ 24`. -/
theorem active_entries_bounded (σ : Int) (hσ : σ < 3600) (cs : List Call) (c : Call)
    (k : String) (slot : Slot)
    (htimed : ∀ d ∈ cs ++ [c], Call.timed σ d) (hseq : Sequential (cs ++ [c]))
    (hslot : (run emptyStore (cs ++ [c])).2 k = some slot) :
    ((activeEntries c.now57 slot.value).length : Int) * (3600 - σ) ≤ 89999 - σ
      ∧ (σ = 0 → (activeEntries c.now57 slot.value).length ≤ 24) := by
  have hc := htimed c (List.mem_append_right _ (List.mem_singleton_self _))
  have hinv : StoreSpaced σ (run emptyStore (cs ++ [c])).2 :=
    runWith_spaced maxWindowRequestCount σ (by omega) (cs ++ [c]) emptyStore
      (emptyStore_spaced _) (fun d hd => (htimed d hd).2.2)
  have hle : ∀ d ∈ cs ++ [c], d.now ≤ c.now57 := by
    intro d hd
    rcases List.mem_append.mp hd with h | h
    · have h1 := (List.pairwise_append.mp hseq).2.2 d h c (List.mem_singleton_self _)
      have h2 := htimed d hd
      have h3 : d.now ≤ d.now75 := le_trans h2.1 h2.2.1
      have h4 : c.now ≤ c.now57 := hc.1
      omega
    · rw [List.mem_singleton.mp h]; exact hc.1
  have hbefore : StoreBefore (run emptyStore (cs ++ [c])).2 c.now57 :=
    runWith_before maxWindowRequestCount c.now57 (cs ++ [c]) emptyStore
      (emptyStore_before _) hle
  exact active_length_bound σ c.now57 hσ slot.value (hinv k slot hslot)
    (hbefore k slot hslot)

set_option maxRecDepth 100000 in
/-- Witness for C10 (amended), with `σ = 0`: after the 25 hourly calls the record has 25
entries, 24 of them inside the window of the last call. -/
theorem active_entries_bounded_witness :
    (run emptyStore (((List.range 24).map (fun k => Call.ok (3600 * (k : Int)) "A"))
          ++ [Call.ok 86400 "A"])).2 "A"
        = some ⟨(List.range 25).map (fun k => ⟨3600 * (k : Int), 1⟩), 172800⟩
      ∧ ((activeEntries 86400
            ((List.range 25).map (fun k => ⟨3600 * (k : Int), 1⟩))).length : Int)
          * (3600 - 0) ≤ 89999 - 0
      ∧ ((0 : Int) = 0 → (activeEntries 86400
            ((List.range 25).map (fun k => ⟨3600 * (k : Int), 1⟩))).length ≤ 24) :=
  ⟨by decide,
    active_entries_bounded 0 (by decide)
      ((List.range 24).map (fun k => Call.ok (3600 * (k : Int)) "A")) (Call.ok 86400 "A") "A"
      ⟨(List.range 25).map (fun k => ⟨3600 * (k : Int), 1⟩), 172800⟩
      (by
        intro d hd
        rcases List.mem_append.mp hd with h | h
        · obtain ⟨k, _, rfl⟩ := List.mem_map.mp h
          simp [Call.ok]
        · rw [List.mem_singleton.mp h]
          simp [Call.ok])
      (by decide) (by decide)⟩

/-! ## Coalescing -/

/-- C11, counterexample: client A calls at second 100; its second call reads the clock
as 3699 on line 39 (less than 3600 s after the first) and as 3700 on lines 57 and 75.
Both calls are admitted, and since the entry `{100, 1}` is not newer than 3700 - 3600
the second call appends `{3699, 1}`: the record has two entries, not the single entry
`{100, 2}`. -/
theorem second_request_not_coalesced :
    (Call.ok 100 "A").now ≤ (Call.reads 3699 3700 3700 "A").now
      ∧ (Call.reads 3699 3700 3700 "A").now < (Call.ok 100 "A").now + 3600
      ∧ (run emptyStore [Call.ok 100 "A", Call.reads 3699 3700 3700 "A"]).1
        = [some Decision.Allow, some Decision.Allow]
      ∧ (run emptyStore [Call.ok 100 "A", Call.reads 3699 3700 3700 "A"]).2 "A"
        = some ⟨[⟨100, 1⟩, ⟨3699, 1⟩], 3700 + 86400⟩ := by
  decide

/-- On a found record in ascending order with counts of at least 1 and an exact sum
over the window below `2 ^ 63`, an admitted request whose last active entry is newer
than the line-75 reading minus 3600 writes the record with its last element, which is
that entry, replaced by the entry with the count incremented by exactly one. -/
theorem coalesce_write_exact (now now57 now75 : Int) (key : String)
    (data : List requestLog) (last : requestLog)
    (hasc : data.Pairwise (fun a b => a.RequestTimeStamp ≤ b.RequestTimeStamp))
    (hpos : ∀ e ∈ data, 1 ≤ e.RequestCount)
    (hfit : activeSum (now57 - 86400) data < 2 ^ 63)
    (hallow : (RateLimiterUsingRedis now now57 now75 key (GetReply.Val data)).1
      = some Decision.Allow)
    (hl : (activeEntries now57 data).getLast? = some last)
    (hlog : last.RequestTimeStamp > now75 - 3600) :
    ∃ init, data = init ++ [last]
      ∧ (RateLimiterUsingRedis now now57 now75 key (GetReply.Val data)).2
        = some ⟨key, init ++ [⟨last.RequestTimeStamp, last.RequestCount + 1⟩], 86400⟩ := by
  have hact : activeEntries now57 data ≠ [] := by
    intro hnil; simp [hnil] at hl
  obtain ⟨init, last2, hdata, hlast2, hin⟩ := last_active_is_last now57 data hasc hact
  have hlast : last2 = last := by
    rw [hl] at hlast2; injection hlast2 with h; exact h.symm
  subst hlast
  subst hdata
  have ht : ¬ windowTotal now57 (init ++ [last2]) ≥ maxWindowRequestCount := by
    intro ht
    unfold RateLimiterUsingRedis at hallow
    rw [limiter_val, if_pos ht] at hallow
    simp at hallow
  have htot := windowTotal_eq_activeSum now57 (init ++ [last2]) hpos hfit
  have hsum : last2.RequestCount ≤ activeSum (now57 - 86400) (init ++ [last2]) := by
    rw [activeSum_append, activeSum_singleton, if_pos hin]
    have := activeSum_nonneg (now57 - 86400) init
      (fun e he => hpos e (List.mem_append_left _ he))
    omega
  have hlt : last2.RequestCount < 110 := by
    rw [htot] at ht
    simp only [maxWindowRequestCount] at ht
    omega
  have h1le : 1 ≤ last2.RequestCount :=
    hpos last2 (List.mem_append_right _ (List.mem_singleton_self _))
  have hwrap : wrapInt (last2.RequestCount + 1) = last2.RequestCount + 1 :=
    wrapInt_of_range _ (by omega) (by omega)
  have hlog2 : last2.RequestTimeStamp > now75 - windowLogIntervalInHours * Hour := by
    simp only [windowLogIntervalInHours, Hour]; omega
  have hset := set_last_eq_dropLast_append (init ++ [last2])
    ⟨last2.RequestTimeStamp, last2.RequestCount + 1⟩ (by simp)
  rw [List.dropLast_concat] at hset
  refine ⟨init, rfl, ?_⟩
  unfold RateLimiterUsingRedis
  rw [limiter_val, if_neg ht]
  simp only [logRequest, hl, hlog2, if_true, hwrap]
  cases hd : init ++ [last2] with
  | nil => simp at hd
  | cons d ds =>
    rw [hd] at hset
    simp only [hset, windowSizeInHours, Hour]
    norm_num

/-- C11, amended: a fresh client whose second request reads the clock on line 75 less
than 3600 s after the first request time `t1` (and reads it as `t1` or later on line 39,
the clock not going back during the call) ends with the single entry `{t1, 2}`.  On a
found record in ascending order of timestamps whose counts are at least 1 and whose
exact sum over the window is below `2 ^ 63`, an admitted request whose last active
entry has a timestamp greater than the line-75 reading minus 3600 writes the record
with that entry, which is its last element, replaced by the same entry with the count
incremented by exactly one: the number of entries and every other entry are as they
were.  The records met by the sequential calls of one client that starts with nothing
stored, on a clock that does not go back and ticks less than 3600 s between lines 39
and 75 of a call, are such records, whatever the store does with the `Get` and the
`Set`. -/
theorem coalesced_into_bucket (s : Store) (ip : String) (c1 c2 : Call) (hs : s ip = none)
    (h1 : c1.ip = ip ∧ c1.getFails = false ∧ c1.setFails = false)
    (h2 : c2.ip = ip ∧ c2.getFails = false ∧ c2.setFails = false)
    (hlo : c1.now ≤ c2.now) (h57 : c2.now ≤ c2.now57) (h75 : c2.now57 ≤ c2.now75)
    (hhi : c2.now75 < c1.now + 3600) :
    ((run s [c1, c2]).1 = [some Decision.Allow, some Decision.Allow]
        ∧ (run s [c1, c2]).2 ip = some ⟨[⟨c1.now, 2⟩], c2.now75 + 86400⟩)
      ∧ (∀ (now now57 now75 : Int) (key : String) (data : List requestLog)
          (last : requestLog),
          data.Pairwise (fun a b => a.RequestTimeStamp ≤ b.RequestTimeStamp) →
          (∀ e ∈ data, 1 ≤ e.RequestCount) →
          activeSum (now57 - 86400) data < 2 ^ 63 →
          (RateLimiterUsingRedis now now57 now75 key (GetReply.Val data)).1
            = some Decision.Allow →
          (activeEntries now57 data).getLast? = some last →
          last.RequestTimeStamp > now75 - 3600 →
          ∃ init, data = init ++ [last]
            ∧ (RateLimiterUsingRedis now now57 now75 key (GetReply.Val data)).2
              = some ⟨key,
                  init ++ [⟨last.RequestTimeStamp, last.RequestCount + 1⟩], 86400⟩)
      ∧ ∀ (pre : List Call) (c : Call) (data : List requestLog) (last : requestLog),
          (∀ d ∈ pre ++ [c], d.ip = ip
            ∧ d.now ≤ d.now57 ∧ d.now57 ≤ d.now75 ∧ d.now75 < d.now + 3600) →
          (pre ++ [c]).Pairwise (fun a b => a.now75 ≤ b.now) →
          redisGet (run s pre).2 c = GetReply.Val data →
          (step (run s pre).2 c).1 = some Decision.Allow →
          (activeEntries c.now57 data).getLast? = some last →
          last.RequestTimeStamp > c.now75 - 3600 →
          ∃ init, data = init ++ [last]
            ∧ (RateLimiterUsingRedis c.now c.now57 c.now75 ip (GetReply.Val data)).2
              = some ⟨ip,
                  init ++ [⟨last.RequestTimeStamp, last.RequestCount + 1⟩], 86400⟩ := by
  refine ⟨?_, fun now now57 now75 key data last hasc hpos hfit hallow hl hlog =>
    coalesce_write_exact now now57 now75 key data last hasc hpos hfit hallow hl hlog, ?_⟩
  · obtain ⟨hdec, exp2, hfin, _, hlast⟩ :=
      runWith_fresh_bucket maxWindowRequestCount ip s c1 [c2] (by decide) hs
        (by simp [maxWindowRequestCount]) h1
        (by
          intro c hc
          rw [List.mem_singleton.mp hc]
          exact ⟨h2.1, h2.2.1, h2.2.2, by omega, by omega, by omega, hhi⟩)
    refine ⟨hdec, ?_⟩
    have hexp := hlast.1 c2 rfl
    rw [hexp] at hfin
    exact hfin
  · intro pre c data last hcs hmono hget hallow hl hlog
    have hc := hcs c (List.mem_append_right _ (List.mem_singleton_self _))
    have hinv := runWith_clientInv_pre maxWindowRequestCount (by decide) (by decide) 3599
      (by decide) ip s pre c hs
      (fun d hd => by
        obtain ⟨a1, a2, a3, a4⟩ := hcs d hd
        exact ⟨a1, a2, a3, by omega⟩)
      hmono
    obtain ⟨slot, hslot, hval⟩ := redisGet_val _ c data hget
    rw [hc.1] at hslot
    obtain ⟨_, _, htot, hrec⟩ := hinv slot hslot
    rw [hval] at htot
    have hpos : ∀ e ∈ data, 1 ≤ e.RequestCount := by
      rw [← hval]; exact hrec.count_pos
    have hasc : data.Pairwise (fun a b => a.RequestTimeStamp ≤ b.RequestTimeStamp) := by
      rw [← hval]; exact spaced_ascending 3599 (by decide) _ hrec.spaced
    have hanti := activeSum_anti (c.now - 86400) (c.now57 - 86400) (by omega) data hpos
    simp only [maxWindowRequestCount] at htot
    have hallow2 : (RateLimiterUsingRedis c.now c.now57 c.now75 ip (GetReply.Val data)).1
        = some Decision.Allow := by
      have : (step (run s pre).2 c).1
          = (RateLimiterUsingRedis c.now c.now57 c.now75 c.ip (redisGet (run s pre).2 c)).1 :=
        rfl
      rw [this, hget, hc.1] at hallow
      exact hallow
    exact coalesce_write_exact c.now c.now57 c.now75 ip data last hasc hpos (by omega)
      hallow2 hl hlog

/-- Witness for C11 (amended): client A at second 0 and then with the clock readings
10, 11, 12; a call with the readings 20, 21, 22 on the record `[{0, 2}]`; and that call
as the third call of the client. -/
theorem coalesced_into_bucket_witness :
    ((run emptyStore [Call.ok 0 "A", Call.reads 10 11 12 "A"]).1
          = [some Decision.Allow, some Decision.Allow]
        ∧ (run emptyStore [Call.ok 0 "A", Call.reads 10 11 12 "A"]).2 "A"
          = some ⟨[⟨0, 2⟩], 12 + 86400⟩)
      ∧ (∃ init, ([⟨0, 2⟩] : List requestLog) = init ++ [⟨0, 2⟩]
        ∧ (RateLimiterUsingRedis 20 21 22 "A" (GetReply.Val [⟨0, 2⟩])).2
          = some ⟨"A", init ++ [⟨0, 2 + 1⟩], 86400⟩)
      ∧ ∃ init, ([⟨0, 2⟩] : List requestLog) = init ++ [⟨0, 2⟩]
        ∧ (RateLimiterUsingRedis (Call.reads 20 21 22 "A").now (Call.reads 20 21 22 "A").now57
            (Call.reads 20 21 22 "A").now75 "A" (GetReply.Val [⟨0, 2⟩])).2
          = some ⟨"A", init ++ [⟨0, 2 + 1⟩], 86400⟩ :=
  ⟨(coalesced_into_bucket emptyStore "A" (Call.ok 0 "A") (Call.reads 10 11 12 "A") rfl
      (by decide) (by decide) (by decide) (by decide) (by decide) (by decide)).1,
    (coalesced_into_bucket emptyStore "A" (Call.ok 0 "A") (Call.reads 10 11 12 "A") rfl
      (by decide) (by decide) (by decide) (by decide) (by decide) (by decide)).2.1
      20 21 22 "A" [⟨0, 2⟩] ⟨0, 2⟩ (by simp) (by simp) (by decide) (by decide)
      (by decide) (by decide),
    (coalesced_into_bucket emptyStore "A" (Call.ok 0 "A") (Call.reads 10 11 12 "A") rfl
      (by decide) (by decide) (by decide) (by decide) (by decide) (by decide)).2.2
      [Call.ok 0 "A", Call.reads 10 11 12 "A"] (Call.reads 20 21 22 "A") [⟨0, 2⟩] ⟨0, 2⟩
      (by decide) (by decide) (by decide) (by decide) (by decide) (by decide)⟩

/-! ## Opening a new bucket -/

theorem limiter_append_write (maxCount now now57 now75 : Int) (ip : String)
    (data : List requestLog) (last : requestLog)
    (h : (limiter maxCount now now57 now75 ip (GetReply.Val data)).1 = some Decision.Allow)
    (hl : (activeEntries now57 data).getLast? = some last)
    (hlog : last.RequestTimeStamp ≤ now75 - 3600) :
    (limiter maxCount now now57 now75 ip (GetReply.Val data)).2
      = some ⟨ip, data ++ [⟨now, 1⟩], 86400⟩ := by
  rw [limiter_val] at h ⊢
  by_cases ht : windowTotal now57 data ≥ maxCount
  · simp [ht] at h
  · have hlog2 : ¬ last.RequestTimeStamp > now75 - windowLogIntervalInHours * Hour := by
      simp only [windowLogIntervalInHours, Hour]; omega
    rw [if_neg ht]
    simp only [logRequest, hl, hlog2, if_false]
    simp [windowSizeInHours, Hour]

/-- C12, counterexample: client A calls at second 0; its second call reads the clock as
86399 on line 39 (more than 3600 s and less than 86400 s after the first) and as 86400
on lines 57 and 75.  The record `[{0, 1}]` is found, its entry is not newer than
86400 - 86400, the total 0 is below the limit, and the call panics on line 74: the
second request gets no Allow and the record stays `[{0, 1}]`. -/
theorem second_request_panics :
    3600 < (Call.reads 86399 86400 86400 "A").now - (Call.ok 0 "A").now
      ∧ (Call.reads 86399 86400 86400 "A").now - (Call.ok 0 "A").now < 86400
      ∧ (run emptyStore [Call.ok 0 "A", Call.reads 86399 86400 86400 "A"]).1
        = [some Decision.Allow, none]
      ∧ (run emptyStore [Call.ok 0 "A", Call.reads 86399 86400 86400 "A"]).2 "A"
        = some ⟨[⟨0, 1⟩], 0 + 86400⟩ := by
  decide

/-- C12, amended: a fresh client whose second request comes more than 3600 s after the
first request time `t1` and reads the clock on line 57 less than 86400 s after `t1` (the
clock not going back during the call) is admitted both times and ends with the record
`[{t1, 1}, {t2, 1}]`, `t2` the line-39 reading of the second call; and on any admitted
request on a found record whose last active entry has a timestamp of at most the
line-75 reading minus 3600, the record written is the stored record with the entry
stamped with the line-39 reading and count 1 appended, every existing entry as it
was. -/
theorem new_bucket_appended (s : Store) (ip : String) (c1 c2 : Call) (hs : s ip = none)
    (h1 : c1.ip = ip ∧ c1.getFails = false ∧ c1.setFails = false)
    (h2 : c2.ip = ip ∧ c2.getFails = false ∧ c2.setFails = false)
    (hlo : 3600 < c2.now - c1.now) (h57 : c2.now ≤ c2.now57) (h75 : c2.now57 ≤ c2.now75)
    (hhi : c2.now57 - c1.now < 86400) :
    ((run s [c1, c2]).1 = [some Decision.Allow, some Decision.Allow]
        ∧ (run s [c1, c2]).2 ip
          = some ⟨[⟨c1.now, 1⟩, ⟨c2.now, 1⟩], c2.now75 + 86400⟩)
      ∧ ∀ (now now57 now75 : Int) (key : String) (data : List requestLog)
          (last : requestLog),
          (RateLimiterUsingRedis now now57 now75 key (GetReply.Val data)).1
            = some Decision.Allow →
          (activeEntries now57 data).getLast? = some last →
          last.RequestTimeStamp ≤ now75 - 3600 →
          (RateLimiterUsingRedis now now57 now75 key (GetReply.Val data)).2
            = some ⟨key, data ++ [⟨now, 1⟩], 86400⟩ := by
  refine ⟨?_, fun now now57 now75 key data last h hl hlog =>
    limiter_append_write _ _ _ _ _ _ _ h hl hlog⟩
  obtain ⟨hip1, hg1, hw1⟩ := h1
  obtain ⟨hip2, hg2, hw2⟩ := h2
  have hstep1 := stepWith_fresh maxWindowRequestCount s c1 (by rw [hip1]; exact hs) hg1 hw1
  have hs2 : (redisSet s c1.now ⟨c1.ip, [⟨c1.now, 1⟩], 86400⟩) c2.ip
      = some ⟨[⟨c1.now, 1⟩], c1.now + 86400⟩ := by
    rw [hip1, hip2]; exact redisSet_same _ _ _ _ _
  have hget := redisGet_found _ c2 ⟨[⟨c1.now, 1⟩], c1.now + 86400⟩ hs2 hg2
    (by simp only; omega)
  simp only at hget
  obtain ⟨ha, ht⟩ := windowTotal_single c2.now57 c1.now 1 (by omega) (by norm_num)
    (by norm_num)
  have hnot : ¬ windowTotal c2.now57 [⟨c1.now, 1⟩] ≥ maxWindowRequestCount := by
    rw [ht]; simp [maxWindowRequestCount]
  have hstep2 := stepWith_val_append maxWindowRequestCount _ c2 [⟨c1.now, 1⟩] ⟨c1.now, 1⟩
    hget hnot (by rw [ha]; rfl) (by simp only; omega) hw2
  have hrun : run s [c1, c2]
      = ((stepWith maxWindowRequestCount s c1).1
          :: [(stepWith maxWindowRequestCount (stepWith maxWindowRequestCount s c1).2 c2).1],
        (stepWith maxWindowRequestCount (stepWith maxWindowRequestCount s c1).2 c2).2) := rfl
  rw [hrun, hstep1]
  simp only
  rw [hstep2]
  refine ⟨rfl, ?_⟩
  simp only
  rw [hip2]
  exact redisSet_same _ _ _ _ _

/-- Witness for C12 (amended): client A at second 0 and then with the clock readings
7200, 7201, 7202; and the record `[{0, 1}]` met by a call with these readings. -/
theorem new_bucket_appended_witness :
    ((run emptyStore [Call.ok 0 "A", Call.reads 7200 7201 7202 "A"]).1
          = [some Decision.Allow, some Decision.Allow]
        ∧ (run emptyStore [Call.ok 0 "A", Call.reads 7200 7201 7202 "A"]).2 "A"
          = some ⟨[⟨0, 1⟩, ⟨7200, 1⟩], 7202 + 86400⟩)
      ∧ (RateLimiterUsingRedis 7200 7201 7202 "A" (GetReply.Val [⟨0, 1⟩])).2
        = some ⟨"A", [⟨0, 1⟩] ++ [⟨7200, 1⟩], 86400⟩ :=
  ⟨(new_bucket_appended emptyStore "A" (Call.ok 0 "A") (Call.reads 7200 7201 7202 "A") rfl
      (by decide) (by decide) (by decide) (by decide) (by decide) (by decide)).1,
    (new_bucket_appended emptyStore "A" (Call.ok 0 "A") (Call.reads 7200 7201 7202 "A") rfl
      (by decide) (by decide) (by decide) (by decide) (by decide) (by decide)).2
      7200 7201 7202 "A" [⟨0, 1⟩] ⟨0, 1⟩ (by decide) (by decide) (by decide)⟩

end RateLimiter
